import Mathlib

/-!
Shallow embedding of the diversity-driven corpus-management core of LeakFuzzer
(src/src/afl-fuzz-bitmap.c), together with theorems checking the natural-language
specification against it.

Modelling conventions:
* machine bytes are `Nat` values taken modulo 256 at the points where the C code
  reads a `u8`; `u32`/`u64` sentinels (`UINT32_MAX`, `UINT64_MAX`) are the literal
  `2 ^ 32 - 1` / `2 ^ 64 - 1`;
* C `float` arithmetic on diversity scores is modelled exactly over `ℚ`;
* pointers to queue entries are indices into the queue list (`queue_buf`), so that
  aliased mutation in the C code becomes an update of the shared list;
* `NULL` pointers are `Option.none`; a dereference of `none` and every `FATAL`
  abort are distinct values of the error type `Err`;
* external collaborators that are not under src/ (LZ4, `hash64`, the hashmap
  container, `calibrate_case`, `add_to_queue`, `update_bitmap_score`,
  `get_fav_factor`) are abstracted as parameters in `Ctx` or modelled from the
  spec, as flagged in the individual doc comments;
* file-system effects (persisting testcases, renames) are elided: the model keeps
  the in-memory state the spec's claims are about;
* the build configuration is the default one: `WORD_SIZE_64` set, `PATH_DIVERSITY`
  and `LEVENSHTEIN_DIST` unset (so NCDm works on raw testcase bytes, K = 32 mode).
-/

namespace LeakFuzzer

/-- Errors: each constructor corresponds to one `FATAL`/`PFATAL` abort site or to an
undefined-behaviour point (null dereference) of the C code. -/
inductive Err where
  | nullDeref
  | foundHashMismatch
  | missingQueueInputHash
  | evicteeNotInBucket
  | compressedLenZero
  | tooManyEntries
  | levOutOfRange
  | noNewCoverage (selected_map : Nat)
  | outOfFuel
deriving DecidableEq

/-- The hit-count classification table `count_class_lookup8` (afl-fuzz-bitmap.c:601),
written as the designated-initializer ranges of the source. Intended domain: bytes 0..255. -/
def count_class_lookup8 (v : Nat) : Nat :=
  if v = 0 then 0
  else if v = 1 then 1
  else if v = 2 then 2
  else if v = 3 then 4
  else if v ≤ 7 then 8
  else if v ≤ 15 then 16
  else if v ≤ 31 then 32
  else if v ≤ 127 then 64
  else 128

/-- `classify_counts`: map every byte of a trace through `count_class_lookup8`
(the 16-bit table of the source is built from the 8-bit one byte-wise). -/
def classify_counts (t : List Nat) : List Nat :=
  t.map (fun b => count_class_lookup8 (b % 256))

/-- The loop `while ((class >> reps) > 1) reps++` of `save_to_edge_entries`
(afl-fuzz-bitmap.c:915), with explicit fuel so that it is structurally recursive.
`reps_loop fuel cls` equals the number of iterations whenever `cls < 2 ^ fuel`. -/
def reps_loop : Nat → Nat → Nat
  | 0, _ => 0
  | fuel + 1, cls => if 2 ≤ cls then reps_loop fuel (cls / 2) + 1 else 0

/-- The bucket index of a class byte: 8 iterations of fuel cover every 8-bit class. -/
def reps_of (cls : Nat) : Nat := reps_loop 8 cls

/-- `minimize_bits` (afl-fuzz-bitmap.c:1266): bit `i` of the result is set iff byte `i`
of the source map is nonzero. The `M/8`-byte destination array is modelled as one
natural number holding the bit vector. -/
def minimize_bits : List Nat → Nat
  | [] => 0
  | b :: bs => (if b % 256 ≠ 0 then 1 else 0) + 2 * minimize_bits bs

/-- `compare_trace_minis` (afl-fuzz-bitmap.c:218): 1 iff the two packed traces differ. -/
def compare_trace_minis (t1 t2 : Nat) : Bool := t1 != t2

/-- `trace_contains_new_coverage` (afl-fuzz-bitmap.c:234): 1 iff `t1` has a bit that
`t2` lacks, i.e. some word of `t1 | t2` differs from `t2`. -/
def trace_contains_new_coverage (t1 t2 : Nat) : Bool := (t1 ||| t2) != t2

/-- The NCD rate-limit schedule of `save_to_edge_entries` (afl-fuzz-bitmap.c:1065). -/
def should_calc_NCD (hit_count : Nat) : Bool :=
  decide (hit_count ≤ 10 ∨ (hit_count ≤ 100 ∧ hit_count % 10 = 0) ∨
    (hit_count ≤ 10000 ∧ hit_count % 100 = 0) ∨ hit_count % 1000 = 0)

/-- The scratch-capacity computation `1 << (bitcnt + 2)` where `bitcnt` is produced by
`while (val > 1) { bitcnt++; val >>= 1; }` — that loop is exactly `Nat.log2`. Shared by
`calc_NCDm` (afl-fuzz-bitmap.c:153) and `fill_trace_mini_and_compressed_len` (…:837). -/
def next_scratch_size (val : Nat) : Nat := 2 ^ (Nat.log2 val + 2)

/-- Calibration results; `calibrate_case` is external to src/, the values it would
measure are abstracted into the context. -/
structure CalOutcome where
  cal_failed : Nat
  exec_us : Nat
  exec_cksum : Nat
  bitmap_size : Nat
  handicap : Nat
deriving DecidableEq

/-- `struct queue_entry`: the fields of the source entry that the modelled code reads
or writes. `trace_mini` is an optional packed bit vector (`none` models the `NULL`
pointer before `fill_trace_mini_and_compressed_len` runs). -/
structure queue_entry where
  len : Nat
  testcase_buf : List Nat
  input_hash : Nat
  duplicates : Nat
  compressed_len : Nat
  trace_mini : Option Nat
  exec_cksum : Nat
  favored : Bool
  ncdm_favored : Bool
  was_fuzzed : Bool
  fuzz_level : Nat
  cal_failed : Nat
  exec_us : Nat
  bitmap_size : Nat
  handicap : Nat
deriving DecidableEq

instance : Inhabited queue_entry :=
  ⟨{len := 0, testcase_buf := [], input_hash := 0, duplicates := 0, compressed_len := 0,
    trace_mini := none, exec_cksum := 0, favored := false, ncdm_favored := false,
    was_fuzzed := false, fuzz_level := 0, cal_failed := 0, exec_us := 0,
    bitmap_size := 0, handicap := 0}⟩

/-- Abstract context for the external collaborators that are not part of src/:
`C` is the size behaviour of `LZ4_compress_default`, `LZ4_compressBound` the LZ4
bound function, `hash64` the content hash, `get_fav_factor` the scheduler's favor
factor (afl-fuzz-queue.c), and `cal` the outcome `calibrate_case` would measure. -/
structure Ctx where
  C : List Nat → Nat
  LZ4_compressBound : Nat → Nat
  hash64 : List Nat → Nat
  get_fav_factor : queue_entry → Nat
  cal : CalOutcome

/-- The bytes of an entry that the C code actually passes around: `len` bytes of
`testcase_buf` (every `memcpy`/`LZ4_compress_default` call sites uses `entry->len`). -/
def payload (e : queue_entry) : List Nat := e.testcase_buf.take e.len

/-- The compressed-length caching of `calc_NCDm`'s first loop (afl-fuzz-bitmap.c:132):
`if (!entry->compressed_len) entry->compressed_len = LZ4_compress_default(...)`.
(The `!entry->testcase_buf` fallback through `queue_testcase_get` is elided: testcase
bytes are always present in the model.) -/
def cache_compressed_len (ctx : Ctx) (e : queue_entry) : queue_entry :=
  if e.compressed_len = 0 then {e with compressed_len := ctx.C (payload e)} else e

/-- The per-entry data `calc_NCDm`'s result actually depends on: the payload bytes and
the (cached-or-recomputed) compressed length. -/
def compressed_key (ctx : Ctx) (e : queue_entry) : List Nat × Nat :=
  (payload e, (cache_compressed_len ctx e).compressed_len)

/-- The scratch-growth step inside `calc_NCDm` (afl-fuzz-bitmap.c:153–164):
grows when `prevLongest <= totalLen`. The pair is `(prevLongest, maxCompressedLen)`. -/
def grow_scratch_calc (ctx : Ctx) (scr : Nat × Nat) (totalLen : Nat) : Nat × Nat :=
  if scr.1 ≤ totalLen then
    (next_scratch_size totalLen, ctx.LZ4_compressBound (next_scratch_size totalLen))
  else scr

/-- The scratch-growth step inside `fill_trace_mini_and_compressed_len`
(afl-fuzz-bitmap.c:840–852): grows when `2 * q_entry->len > prevLongest`. -/
def grow_scratch_fill (ctx : Ctx) (scr : Nat × Nat) (len : Nat) : Nat × Nat :=
  if 2 * len > scr.1 then
    (next_scratch_size len, ctx.LZ4_compressBound (next_scratch_size len))
  else scr

/-- `calc_NCDm` (afl-fuzz-bitmap.c:114–215), default build (`PATH_DIVERSITY` unset, so
the payload is the raw testcase bytes). Returns the score, the entry list with the
compressed-length caches filled in (the C code writes them through the entry pointers),
and the updated `(prevLongest, maxCompressedLen)` scratch pair. -/
def calc_NCDm (ctx : Ctx) (scr : Nat × Nat) (queue_entries : List queue_entry) :
    ℚ × List queue_entry × (Nat × Nat) :=
  -- first loop: fill the compressed_len caches and take the running minimum
  let cached := queue_entries.map (cache_compressed_len ctx)
  let totalLen := queue_entries.foldl (fun t e => t + e.len) 0
  let minCompressedLen :=
    cached.foldl (fun m e => if e.compressed_len < m then e.compressed_len else m) (2 ^ 32 - 1)
  let scr' := grow_scratch_calc ctx scr totalLen
  -- second loop concatenates all payloads into uncompressedData and compresses them
  let fullSetCompressedLen := ctx.C ((queue_entries.map payload).flatten)
  -- leave-one-out loop
  let maxSubsetCompressedLen := (List.range queue_entries.length).foldl
    (fun m leftOut =>
      let compressedLen := ctx.C (((queue_entries.eraseIdx leftOut).map payload).flatten)
      if compressedLen > m then compressedLen else m) 0
  (if maxSubsetCompressedLen = 0 then 0
   else ((fullSetCompressedLen : ℚ) - ((minCompressedLen : Nat) : ℚ)) /
        ((maxSubsetCompressedLen : Nat) : ℚ),
   cached, scr')

/-- The score component of `calc_NCDm` (it does not depend on the scratch state). -/
def calc_NCDm_val (ctx : Ctx) (queue_entries : List queue_entry) : ℚ :=
  (calc_NCDm ctx (0, 0) queue_entries).1

/-- The value of `calc_NCDm` as a function of the per-entry `compressed_key`s
(payload bytes and effective compressed length); used to reason about score
stability under the cache fills. -/
def NCDm_keys (C : List Nat → Nat) (keys : List (List Nat × Nat)) : ℚ :=
  let minC : Nat := keys.foldl (fun m k => if k.2 < m then k.2 else m) (2 ^ 32 - 1)
  let fullC : Nat := C ((keys.map Prod.fst).flatten)
  let maxC : Nat := (List.range keys.length).foldl
    (fun m i => if C (((keys.eraseIdx i).map Prod.fst).flatten) > m
                then C (((keys.eraseIdx i).map Prod.fst).flatten) else m) 0
  if maxC = 0 then 0 else ((fullC : ℚ) - (minC : ℚ)) / (maxC : ℚ)

/-- The score `find_eviction_candidate` computes for replacement index `i`: the cell's
entries with entry `i` removed and the new entry appended. -/
def replacement_score (ctx : Ctx) (existing : List queue_entry) (new_entry : queue_entry)
    (i : Nat) : ℚ :=
  calc_NCDm_val ctx (existing.eraseIdx i ++ [new_entry])

/-- `LEVMIN(a,b,c)` (afl-fuzz-bitmap.c:82). -/
def LEVMIN (a b c : Nat) : Nat :=
  if a < b then (if a < c then a else c) else (if b < c then b else c)

/-- One iteration of the outer Levenshtein loop (afl-fuzz-bitmap.c:78–87): given the
previous row `m1` (length `len_2`) and row index `i`, produce the next row:
`matrix2[0] = i+1`, then `matrix2[j+1] = LEVMIN(matrix2[j]+1, matrix1[j+1]+1,
matrix1[j] + cost)` with `cost = (str_1[i] == str_2[j]) ? 0 : 1`. -/
def lev_next_row (s1 s2 : List Nat) (i : Nat) (m1 : List Nat) : List Nat :=
  (List.range (s2.length - 1)).foldl
    (fun m2 j =>
      let cost := if s1.getD i 0 = s2.getD j 0 then 0 else 1
      m2 ++ [LEVMIN ((m2.getLast?.getD 0) + 1) ((m1.getD (j + 1) 0) + 1)
              ((m1.getD j 0) + cost)])
    [i + 1]

/-- The edit-distance value the C code actually reads out of `matrix2[len_2-1]`:
for `len_1 = 1` it is the pre-loop value `str_1[0]==str_2[0] ? 0 : 1`; for
`len_1 ≥ 2` it is the last cell of the row obtained after iterations
`i = 0 .. len_1-2` starting from `matrix1 = [0, 1, …, len_2-1]`. -/
def code_edit_dist (s1 s2 : List Nat) : Nat :=
  if s1.length ≤ 1 then (if s1.getD 0 0 = s2.getD 0 0 then 0 else 1)
  else
    (((List.range (s1.length - 1)).foldl (fun m i => lev_next_row s1 s2 i m)
        (List.range s2.length)).getLast?.getD 0)

/-- `calc_normalised_levenshtein_dist` (afl-fuzz-bitmap.c:41–112). The two entries are
swapped so that `str_1` is the longer testcase; the `FATAL` on a result outside [0,1]
is the `levOutOfRange` error. (The `!queue_entry_2` null check is elided: the model
always receives two entries.) -/
def calc_normalised_levenshtein_dist (e1 e2 : queue_entry) : Except Err ℚ :=
  if e1.len = 0 ∨ e2.len = 0 then .ok 0
  else if e1.len = e2.len ∧ payload e1 = payload e2 then .ok 0
  else
    let len_1 := if e2.len < e1.len then e1.len else e2.len
    let str_1 := if e2.len < e1.len then payload e1 else payload e2
    let str_2 := if e2.len < e1.len then payload e2 else payload e1
    let edit_dist := code_edit_dist str_1 str_2
    let norm_dist : ℚ := ((len_1 : ℚ) - (edit_dist : ℚ)) / (len_1 : ℚ)
    if 1 < norm_dist ∨ norm_dist < 0 then .error .levOutOfRange else .ok norm_dist

/-- The classical Levenshtein edit distance between two byte strings, as the spec's
words state it (used only to compare the code's result against the claim). -/
def levenshtein : List Nat → List Nat → Nat
  | [], ys => ys.length
  | x :: xs, [] => (x :: xs).length
  | x :: xs, y :: ys =>
      if x = y then levenshtein xs ys
      else 1 + min (levenshtein xs ys) (min (levenshtein (x :: xs) ys) (levenshtein xs (y :: ys)))

/-- The smallest power of two that is at least `d`, as the spec's words
"round up to the next power of two" state it (comparison definition for C8). -/
def next_pow2_spec (d : Nat) : Nat :=
  2 ^ (((List.range (d + 1)).find? (fun k => d ≤ 2 ^ k)).getD d)

/-- A natural number is a power of two. -/
def is_pow_two (n : Nat) : Prop := ∃ k, n = 2 ^ k

/-- `struct queue_input_hash`: one bucket of the input-hash index. `inputs` holds
queue indices; `inputs_count` is its length and the `allocated_inputs` capacity
management is elided (the model list grows directly). -/
structure queue_input_hash where
  hash : Nat
  inputs : List Nat
deriving DecidableEq

/-- `hashmap_get` of the external hashmap container: find the bucket with the key. -/
def hashmap_get (m : List queue_input_hash) (h : Nat) : Option queue_input_hash :=
  m.find? (fun b => b.hash == h)

/-- `hashmap_set`: replace the bucket with the same key, or add the new bucket. -/
def hashmap_set (m : List queue_input_hash) (b : queue_input_hash) : List queue_input_hash :=
  if m.any (fun x => x.hash == b.hash) then
    m.map (fun x => if x.hash == b.hash then b else x)
  else m ++ [b]

/-- Read a queue entry through its index (a pointer dereference in the C code).
Out-of-range indices yield the default entry; the well-formedness hypotheses of the
theorems keep all dereferenced indices in range. -/
def getQ (q : List queue_entry) (i : Nat) : queue_entry := q.getD i default

/-- Write through a queue-entry pointer. -/
def setQ (q : List queue_entry) (i : Nat) (f : queue_entry → queue_entry) :
    List queue_entry := q.set i (f (getQ q i))

/-- Write a batch of entry values back through a list of entry pointers (used after
`calc_NCDm` filled compressed-length caches through its argument pointers). -/
def writeBackQ (q : List queue_entry) (ids : List Nat) (es : List queue_entry) :
    List queue_entry :=
  (ids.zip es).foldl (fun acc p => acc.set p.1 p.2) q

/-- `struct edge_entry`: one (edge, bucket) cell. `entries` holds queue indices,
`entry_count` is its length. -/
structure edge_entry where
  hit_count : Nat
  discovery_execs : Nat
  replacement_count : Nat
  entries : List Nat
  normalised_compression_dist : ℚ

instance : Inhabited edge_entry :=
  ⟨{hit_count := 0, discovery_execs := 0, replacement_count := 0, entries := [],
    normalised_compression_dist := 0}⟩

/-- Pointwise update of the cell array (`afl->edge_entries[pos]` is mutated in place). -/
def updF (f : Nat → edge_entry) (i : Nat) (v : edge_entry) : Nat → edge_entry :=
  fun j => if j = i then v else f j

/-- The slice of `afl_state_t` (plus the module-level scratch globals `prevLongest`
and `maxCompressedLen`) that the modelled functions read and write. -/
structure afl_state where
  queue_buf : List queue_entry
  edge_entries : Nat → edge_entry
  edge_entry_count : Nat
  ncd_entries_per_edge : Nat
  queue_input_hashmap : List queue_input_hash
  top_rated : Nat → Option Nat
  pending_edge_entries : Nat
  discovered_edge_entries : Nat
  total_execs : Nat
  prevLongest : Nat
  maxCompressedLen : Nat

/-- `move_queue_entry_to_correct_input_hash` (afl-fuzz-bitmap.c:700–773). The C code
reads `found->hash` (line 705) before the `if (!found)` null check (line 709), so a
missing bucket is a null dereference and the guarded FATAL cannot fire; the model
keeps both the dead guard and the dereference order. -/
def move_queue_entry_to_correct_input_hash (st : afl_state) (evictee : Nat)
    (new : queue_entry) : Except Err afl_state :=
  let input_hash := (getQ st.queue_buf evictee).input_hash
  let foundOpt := hashmap_get st.queue_input_hashmap input_hash
  match foundOpt with
  | none => .error .nullDeref   -- found->hash is read while found == NULL
  | some found =>
    if found.hash ≠ input_hash then .error .foundHashMismatch
    else if foundOpt.isNone then .error .missingQueueInputHash  -- dead: foundOpt is some
    else
      -- removal loop: every listed entry gets duplicates = inputs_count - 2 (or 0),
      -- the evictee is shifted out, inputs_count is decremented
      let n := found.inputs.length
      let newDup := if 2 ≤ n then n - 2 else 0
      let queue1 := found.inputs.foldl
        (fun acc id => setQ acc id (fun e => {e with duplicates := newDup})) st.queue_buf
      if evictee ∉ found.inputs then .error .evicteeNotInBucket
      else
        let found1 : queue_input_hash := {found with inputs := found.inputs.erase evictee}
        let hm1 := hashmap_set st.queue_input_hashmap found1
        -- insertion under the new hash; the evictee's input_hash is rewritten first
        let queue2 := setQ queue1 evictee (fun e => {e with input_hash := new.input_hash})
        match hashmap_get hm1 new.input_hash with
        | none =>
            let queue3 := setQ queue2 evictee (fun e => {e with duplicates := 0})
            .ok {st with queue_buf := queue3,
                         queue_input_hashmap :=
                           hashmap_set hm1 {hash := new.input_hash, inputs := [evictee]}}
        | some f2 =>
            let f2' : queue_input_hash := {f2 with inputs := f2.inputs ++ [evictee]}
            let dups := f2'.inputs.length - 1
            let queue3 := f2'.inputs.foldl
              (fun acc id => setQ acc id (fun e => {e with duplicates := dups})) queue2
            .ok {st with queue_buf := queue3,
                         queue_input_hashmap := hashmap_set hm1 f2'}

/-- `swap_in_candidate` (afl-fuzz-bitmap.c:775–822): rehome the evictee in the hash
index, then replace its content in place. The file truncate/write/rename dance on
`evictee->fname` is elided (file-system state is outside the model). -/
def swap_in_candidate (st : afl_state) (evictee : Nat) (new : queue_entry) :
    Except Err afl_state := do
  let st1 ← move_queue_entry_to_correct_input_hash st evictee new
  .ok {st1 with queue_buf := setQ st1.queue_buf evictee (fun e =>
        {e with len := new.len, testcase_buf := new.testcase_buf,
                compressed_len := new.compressed_len, trace_mini := new.trace_mini})}

/-- `fill_trace_mini_and_compressed_len` (afl-fuzz-bitmap.c:834–870), default build:
grow the scratch if needed, set `trace_mini` from the current trace map, compress the
testcase bytes, and FATAL when the compressed length comes out zero. -/
def fill_trace_mini_and_compressed_len (ctx : Ctx) (trace : List Nat) (scr : Nat × Nat)
    (q_entry : queue_entry) : Except Err ((Nat × Nat) × queue_entry) :=
  let scr' := grow_scratch_fill ctx scr q_entry.len
  let q' := {q_entry with trace_mini := some (minimize_bits trace),
                          compressed_len := ctx.C (payload q_entry)}
  if q'.compressed_len = 0 then .error .compressedLenZero else .ok (scr', q')

/-- One iteration of the replacement loop of `find_eviction_candidate`
(afl-fuzz-bitmap.c:405–421): build the candidate array (the existing entries without
index `i` plus the new entry, via the two `memcpy`s at lines 406–410), score it with
`calc_NCDm`, keep the strictly best index; the compressed-length caches written by
`calc_NCDm` persist through the aliased entry pointers. -/
def find_eviction_step (ctx : Ctx)
    (acc : List queue_entry × queue_entry × (Nat × Nat) × ℚ × Int) (i : Nat) :
    List queue_entry × queue_entry × (Nat × Nat) × ℚ × Int :=
  let (es, ne, s, best_dist, cand) := acc
  let all_entries := es.eraseIdx i ++ [ne]
  let c := calc_NCDm ctx s all_entries
  let es' := es.mapIdx (fun j e => if j = i then e else cache_compressed_len ctx e)
  let ne' := cache_compressed_len ctx ne
  if best_dist < c.1 then (es', ne', c.2.2, c.1, (i : Int))
  else (es', ne', c.2.2, best_dist, cand)

/-- `find_eviction_candidate` (afl-fuzz-bitmap.c:376–436), NCD build. The candidate
NCD is compared strictly against the best so far, which starts at the cell's recorded
NCD unless `forced`. Returns the chosen index (or -1), plus the entry values and
scratch as mutated through the pointer aliases by `calc_NCDm`'s cache fills. -/
def find_eviction_candidate (ctx : Ctx) (scr : Nat × Nat) (existing_entries_NCD : ℚ)
    (existing_edge_entries : List queue_entry) (new_entry : queue_entry) (forced : Bool) :
    Except Err (Int × List queue_entry × queue_entry × (Nat × Nat)) :=
  if 32 < existing_edge_entries.length then .error .tooManyEntries
  else
    let best0 : ℚ := if forced then 0 else existing_entries_NCD
    let r := (List.range existing_edge_entries.length).foldl (find_eviction_step ctx)
      (existing_edge_entries, new_entry, scr, best0, (-1 : Int))
    let (es, ne, scrF, best_dist, cand) := r
    if ¬ forced ∧ best_dist ≤ existing_entries_NCD then .ok (-1, es, ne, scrF)
    else .ok (cand, es, ne, scrF)

/-- Modelled from the spec: `calibrate_case` (afl-fuzz-run.c, not under src/) performs
the one-time measurement of execution time, checksum, bitmap size and handicap for a
queue entry and records it on the entry (§4.5, Glossary "Calibration"); the measured
values are abstracted as `ctx.cal`. -/
def calibrate_case (ctx : Ctx) (e : queue_entry) : queue_entry :=
  {e with cal_failed := ctx.cal.cal_failed, exec_us := ctx.cal.exec_us,
          exec_cksum := ctx.cal.exec_cksum, bitmap_size := ctx.cal.bitmap_size,
          handicap := ctx.cal.handicap}

/-- Modelled from the spec: `add_to_queue` (afl-fuzz-queue.c, not under src/) appends a
fresh queue entry with the given length and checksum whose flags and `duplicates`
count start cleared (§3 QueueEntry, §4.5 `add`); the new entry becomes `queue_top`.
Returns the state and the index of the new entry. Filename ownership is elided. -/
def add_to_queue (st : afl_state) (len _depth cksum : Nat) : afl_state × Nat :=
  ({st with queue_buf :=
      st.queue_buf ++ [{(default : queue_entry) with len := len, exec_cksum := cksum}]},
   st.queue_buf.length)

/-- Modelled from the spec: `update_bitmap_score` (afl-fuzz-queue.c, not under src/)
installs the chosen best-`fav_factor` entry as the top-rated representative of the
edge and marks it favored (§4.4 step 5, Glossary "Favored"). -/
def update_bitmap_score (st : afl_state) (i : Nat) (best : Nat) : afl_state :=
  {st with top_rated := fun j => if j = i then some best else st.top_rated j,
           queue_buf := setQ st.queue_buf best (fun e => {e with favored := true})}

/-- The favored-rebalancing block of `save_to_edge_entries` (afl-fuzz-bitmap.c:1118–1157):
clear the evictee's favored flag; for every edge whose top-rated entry was the evictee,
scan the edge's 8 buckets for the entry with the smallest `fav_factor` (starting from
the `UINT64_MAX` sentinel), install it, and copy the fuzz state if it was unfuzzed;
if no entry is found, restore the evictee's favored flag. -/
def rebalance_top_rated (ctx : Ctx) (map_size : Nat) (st0 : afl_state) (evictee : Nat) :
    afl_state :=
  let qb1 := setQ st0.queue_buf evictee (fun e => {e with favored := false})
  let st1 := {st0 with queue_buf := qb1}
  (List.range map_size).foldl
    (fun st i =>
      if st.top_rated i = some evictee then
        let best := (List.range 8).foldl
          (fun acc reps =>
            (st.edge_entries (8 * i + reps)).entries.foldl
              (fun (acc : Nat × Option Nat) id =>
                let fav_score := ctx.get_fav_factor (getQ st.queue_buf id)
                if fav_score < acc.1 then (fav_score, some id) else acc) acc)
          (2 ^ 64 - 1, none)
        match best.2 with
        | some bid =>
            let st' := {st with top_rated := fun j => if j = i then none else st.top_rated j}
            let st'' := update_bitmap_score st' i bid
            if ¬ (getQ st''.queue_buf bid).was_fuzzed then
              {st'' with queue_buf := setQ st''.queue_buf bid (fun e =>
                {e with fuzz_level := (getQ st''.queue_buf evictee).fuzz_level,
                        was_fuzzed := (getQ st''.queue_buf evictee).was_fuzzed})}
            else st''
        | none =>
            {st with queue_buf := setQ st.queue_buf evictee (fun e => {e with favored := true})}
      else st)
    st1

/-- The loop-carried locals of `save_to_edge_entries`: the state, the synthetic query
entry (whose `trace_mini`/`compressed_len` are filled lazily), the `is_duplicate` and
`calibration_complete` flags, the cached calibration results, and `inserted`. -/
structure save_loop_state where
  st : afl_state
  q_entry : queue_entry
  is_duplicate : Bool
  calibration_complete : Bool
  cal_cache : CalOutcome
  inserted : Bool

/-- Fill the synthetic entry's `trace_mini`/`compressed_len` when still missing
(the `if (!q_entry->trace_mini) fill_trace_mini_and_compressed_len(afl, q_entry)`
sites of `save_to_edge_entries`). -/
def ensure_trace_mini (ctx : Ctx) (trace : List Nat) (scr : Nat × Nat)
    (q : queue_entry) : Except Err ((Nat × Nat) × queue_entry) :=
  if q.trace_mini = none then fill_trace_mini_and_compressed_len ctx trace scr q
  else .ok (scr, q)

/-- The eviction tail of one cell visit (afl-fuzz-bitmap.c:1095–1175): ensure the
query entry is filled, swap it in over the evictee, refresh bookkeeping, recompute the
cell's NCD, rebalance `top_rated` if the evictee was favored, and calibrate. -/
def save_evict (ctx : Ctx) (trace : List Nat) (edge_entries_pos : Nat) (idx : Nat)
    (ls : save_loop_state) : Except Err save_loop_state := do
  let st0 := ls.st
  let (scr1, q') ← ensure_trace_mini ctx trace (st0.prevLongest, st0.maxCompressedLen)
    ls.q_entry
  let st1 := {st0 with prevLongest := scr1.1, maxCompressedLen := scr1.2}
  let cell := st1.edge_entries edge_entries_pos
  let evictee := cell.entries.getD idx 0
  let st2 ← swap_in_candidate st1 evictee q'
  let st3 := {st2 with queue_buf := setQ st2.queue_buf evictee (fun e =>
    {e with exec_cksum := 0, input_hash := q'.input_hash})}
  -- found = hashmap_get(...); is_duplicate = true
  let cell2 := {cell with replacement_count := cell.replacement_count + 1}
  let c := calc_NCDm ctx (st3.prevLongest, st3.maxCompressedLen)
    (cell2.entries.map (getQ st3.queue_buf))
  let st4 := {st3 with queue_buf := writeBackQ st3.queue_buf cell2.entries c.2.1,
                       prevLongest := c.2.2.1, maxCompressedLen := c.2.2.2}
  let cell3 := {cell2 with normalised_compression_dist := c.1}
  let st5 := {st4 with edge_entries := updF st4.edge_entries edge_entries_pos cell3}
  let st6 := if (getQ st5.queue_buf evictee).favored
    then rebalance_top_rated ctx trace.length st5 evictee else st5
  let st7 :=
    if ls.calibration_complete then
      {st6 with queue_buf := setQ st6.queue_buf evictee (fun e =>
        {e with cal_failed := ls.cal_cache.cal_failed, exec_us := ls.cal_cache.exec_us,
                exec_cksum := ls.cal_cache.exec_cksum,
                bitmap_size := ls.cal_cache.bitmap_size,
                handicap := ls.cal_cache.handicap})}
    else {st6 with queue_buf := setQ st6.queue_buf evictee (calibrate_case ctx)}
  .ok {ls with st := st7, q_entry := q', is_duplicate := true,
               calibration_complete := true,
               cal_cache := if ls.calibration_complete then ls.cal_cache else ctx.cal,
               inserted := true}

/-- One byte of the `save_to_edge_entries` scan (afl-fuzz-bitmap.c:905–1181): classify
the byte, bump the cell's hit count, then run the dedup check, the fill phase or the
saturated phase on the cell `8 * byte_index + reps`. -/
def save_to_edge_entries_step (ctx : Ctx) (trace : List Nat) (k : Nat)
    (ls : save_loop_state) : Except Err save_loop_state :=
  let b := trace.getD k 0 % 256
  if b = 0 then .ok ls
  else
    let cls := count_class_lookup8 b
    let reps := reps_of cls
    let edge_entries_pos := 8 * k + reps
    let st0 := ls.st
    let cell0 := st0.edge_entries edge_entries_pos
    let cell1 := {cell0 with hit_count := cell0.hit_count + 1}
    let st1 := {st0 with edge_entries := updF st0.edge_entries edge_entries_pos cell1}
    -- dedup check: an entry with the same input hash is already stored in this cell
    if cell1.entries.any (fun id => (getQ st1.queue_buf id).input_hash == ls.q_entry.input_hash)
    then .ok {ls with st := st1}
    else if cell1.entries.length < st1.ncd_entries_per_edge then
      -- fill phase
      let st2 :=
        if cell1.entries.length = 0 then
          {st1 with pending_edge_entries := st1.pending_edge_entries + 1,
                    discovered_edge_entries := st1.discovered_edge_entries + 1,
                    edge_entries := updF st1.edge_entries edge_entries_pos
                      {cell1 with discovery_execs := st1.total_execs}}
        else st1
      let cell2 := st2.edge_entries edge_entries_pos
      if 0 < cell2.entries.length ∧ ls.is_duplicate then .ok {ls with st := st2}
      else do
        -- persist the file under queue/ (elided) and materialize the new entry
        let (st3, newId) := add_to_queue st2 ls.q_entry.len cell2.entries.length 0
        let (scr4, q') ← ensure_trace_mini ctx trace (st3.prevLongest, st3.maxCompressedLen)
          ls.q_entry
        let qb4 := setQ st3.queue_buf newId (fun e =>
          {e with testcase_buf := payload q', exec_cksum := 0,
                  input_hash := q'.input_hash, trace_mini := q'.trace_mini})
        let st4 := {st3 with prevLongest := scr4.1, maxCompressedLen := scr4.2,
                             queue_buf := qb4}
        -- register the new entry in the input-hash index
        let st5 :=
          match hashmap_get st4.queue_input_hashmap q'.input_hash with
          | some found =>
              let found' : queue_input_hash := {found with inputs := found.inputs ++ [newId]}
              let dups := found'.inputs.length - 1
              {st4 with
                queue_buf := found'.inputs.foldl
                  (fun acc id => setQ acc id (fun e => {e with duplicates := dups}))
                  st4.queue_buf,
                queue_input_hashmap := hashmap_set st4.queue_input_hashmap found'}
          | none =>
              let new_hash : queue_input_hash := {hash := q'.input_hash, inputs := [newId]}
              {st4 with queue_input_hashmap := hashmap_set st4.queue_input_hashmap new_hash}
        let is_dup' := if (hashmap_get st4.queue_input_hashmap q'.input_hash).isSome
          then ls.is_duplicate else true
        -- append to the cell and recompute its diversity score
        let cell3 := {cell2 with entries := cell2.entries ++ [newId]}
        let c := calc_NCDm ctx (st5.prevLongest, st5.maxCompressedLen)
          (cell3.entries.map (getQ st5.queue_buf))
        let st6 := {st5 with queue_buf := writeBackQ st5.queue_buf cell3.entries c.2.1,
                             prevLongest := c.2.2.1, maxCompressedLen := c.2.2.2}
        let cell4 := {cell3 with normalised_compression_dist := c.1}
        let st7 := {st6 with edge_entries := updF st6.edge_entries edge_entries_pos cell4}
        -- calibrate once per call; later cells reuse the cached results
        let st8 :=
          if ls.calibration_complete then
            {st7 with queue_buf := setQ st7.queue_buf newId (fun e =>
              {e with cal_failed := ls.cal_cache.cal_failed, exec_us := ls.cal_cache.exec_us,
                      exec_cksum := ls.cal_cache.exec_cksum,
                      bitmap_size := ls.cal_cache.bitmap_size,
                      handicap := ls.cal_cache.handicap})}
          else {st7 with queue_buf := setQ st7.queue_buf newId (calibrate_case ctx)}
        .ok {ls with st := st8, q_entry := q', is_duplicate := is_dup',
                     calibration_complete := true,
                     cal_cache := if ls.calibration_complete then ls.cal_cache else ctx.cal,
                     inserted := true}
    else
      -- saturated phase
      if ls.is_duplicate then .ok {ls with st := st1}
      else
        match cell1.entries.findIdx? (fun id => (getQ st1.queue_buf id).duplicates != 0) with
        | some dupIdx => save_evict ctx trace edge_entries_pos dupIdx {ls with st := st1}
        | none =>
          if ¬ should_calc_NCD cell1.hit_count then .ok {ls with st := st1}
          else do
            let (scr2, q') ← ensure_trace_mini ctx trace
              (st1.prevLongest, st1.maxCompressedLen) ls.q_entry
            let st2 := {st1 with prevLongest := scr2.1, maxCompressedLen := scr2.2}
            let fec ← find_eviction_candidate ctx (st2.prevLongest, st2.maxCompressedLen)
              cell1.normalised_compression_dist (cell1.entries.map (getQ st2.queue_buf))
              q' false
            let st3 := {st2 with queue_buf := writeBackQ st2.queue_buf cell1.entries fec.2.1,
                                 prevLongest := fec.2.2.2.1,
                                 maxCompressedLen := fec.2.2.2.2}
            let ls2 := {ls with st := st3, q_entry := fec.2.2.1}
            if fec.1 = -1 then .ok ls2
            else save_evict ctx trace edge_entries_pos fec.1.toNat ls2

/-- `save_to_edge_entries` (afl-fuzz-bitmap.c:872–1186): hash the input, look it up in
the input-hash index, then scan every byte of the trace map (the u64-word chunking of
the source only skips zero bytes eight at a time, which the per-byte scan reproduces).
The final `ck_free(q_entry->trace_mini)` releases the synthetic entry's buffer and has
no persistent effect. -/
def save_to_edge_entries (ctx : Ctx) (trace : List Nat) (st : afl_state)
    (q_entry : queue_entry) : Except Err (afl_state × Bool) :=
  if st.edge_entry_count = 0 then .ok (st, false)
  else do
    let h := ctx.hash64 (payload q_entry)
    let q1 := {q_entry with input_hash := h}
    let is_dup := (hashmap_get st.queue_input_hashmap h).isSome
    let ini : save_loop_state :=
      ⟨st, q1, is_dup, false, ctx.cal, false⟩
    let fin ← (List.range trace.length).foldlM
      (fun ls k => save_to_edge_entries_step ctx trace k ls) ini
    .ok (fin.st, fin.inserted)

/-- The hit-count increment one trace byte applies to the cell array (the
`entry->hit_count++` at afl-fuzz-bitmap.c:1006, with the zero-byte skip). -/
def bump_step (trace : List Nat) (k : Nat) (f : Nat → edge_entry) : Nat → edge_entry :=
  let b := trace.getD k 0 % 256
  if b = 0 then f
  else
    let pos := 8 * k + reps_of (count_class_lookup8 b)
    updF f pos {f pos with hit_count := (f pos).hit_count + 1}

/-- The state after the hit-count increments of the first `n` trace bytes, with
nothing else changed. -/
def bump_firstn (trace : List Nat) (n : Nat) (st : afl_state) : afl_state :=
  let cells := (List.range n).foldl (fun f k => bump_step trace k f) st.edge_entries
  {st with edge_entries := cells}

/-- The state with every cell touched by the trace having its hit count incremented
and nothing else changed: what the second processing of an already-registered input
leaves behind. -/
def bump_hit_counts (trace : List Nat) (st : afl_state) : afl_state :=
  bump_firstn trace trace.length st

/-- The raw consistency predicate between an input-hash index and a queue: bucket
keys are distinct, every listed queue index is in range, carries the bucket's hash and
`duplicates = inputs_count - 1`, buckets are duplicate-free, and every queue entry is
listed in some bucket. -/
def index_ok (m : List queue_input_hash) (qb : List queue_entry) : Prop :=
  m.Pairwise (fun a b => a.hash ≠ b.hash) ∧
  (∀ b ∈ m, ∀ id ∈ b.inputs,
     id < qb.length ∧ (getQ qb id).input_hash = b.hash ∧
     (getQ qb id).duplicates = b.inputs.length - 1) ∧
  (∀ b ∈ m, b.inputs.Nodup) ∧
  (∀ id < qb.length, ∃ b ∈ m, id ∈ b.inputs)

/-- The input-hash index invariant (spec §3 InputHashBucket, §8 property 1): the
index and queue of the state satisfy `index_ok` (hence, by the hash fields, every
entry is in exactly the bucket keyed by its own `input_hash`). -/
def input_hash_index_invariant (st : afl_state) : Prop :=
  index_ok st.queue_input_hashmap st.queue_buf

/-- The union of the packed coverage vectors over the entries currently flagged
`ncdm_favored`. -/
def ncdm_favored_union (queue : List queue_entry) : Nat :=
  queue.foldl (fun acc e => if e.ncdm_favored then acc ||| e.trace_mini.getD 0 else acc) 0

/-- The minimized set of discovered (edge, bucket) bits: bit `i` set iff byte `i` of
`virgin_bits` has lost at least one bit, i.e. `~virgin_bits[i] != 0`
(afl-fuzz-bitmap.c:272–277). -/
def all_discovered_bits (virgin_bits : List Nat) : Nat :=
  minimize_bits (virgin_bits.map (fun b => 255 ^^^ (b % 256)))

/-- The candidate-selection state of one pass over the queue in `set_NCDm_favored`
(afl-fuzz-bitmap.c:285–313): the `UINT32_MAX`-seeded shortest compressed length, the
best NCDm so far, the best candidate (NULL-initialised), the `found_cov` flag, and the
queue/scratch as mutated through `calc_NCDm`'s caches. -/
structure pick_state where
  shortest : Nat
  best_NCDm : ℚ
  best_candidate : Option Nat
  found_cov : Bool
  queue : List queue_entry
  scr : Nat × Nat

/-- One queue entry considered by the selection pass of `set_NCDm_favored`: skipped
unless it adds coverage; the first pick minimizes `compressed_len`, later picks
maximize the NCDm of the selected set plus the candidate. -/
def set_NCDm_pick_step (ctx : Ctx) (selected : List Nat) (sel_map : Nat)
    (ps : pick_state) (i : Nat) : pick_state :=
  let q := getQ ps.queue i
  if ¬ trace_contains_new_coverage (q.trace_mini.getD 0) sel_map then ps
  else
    let ps1 := {ps with found_cov := true}
    if selected.length = 0 then
      if q.compressed_len < ps1.shortest then
        {ps1 with best_candidate := some i, shortest := q.compressed_len}
      else ps1
    else
      let ids := selected ++ [i]
      let c := calc_NCDm ctx ps1.scr (ids.map (getQ ps1.queue))
      let ps2 := {ps1 with queue := writeBackQ ps1.queue ids c.2.1, scr := c.2.2}
      if ps2.best_NCDm < c.1 then {ps2 with best_candidate := some i, best_NCDm := c.1}
      else ps2

/-- The greedy set-cover loop of `set_NCDm_favored` (afl-fuzz-bitmap.c:284–341), with
explicit fuel (each iteration strictly grows `sel_map`, so `2 ^ map_size` fuel always
suffices — proved below). A pass that finds no coverage-adding entry is the FATAL
at line 318; a pass whose `best_candidate` stays NULL despite `found_cov` dereferences
the null `best_candidate` at line 323. -/
def set_NCDm_loop (ctx : Ctx) (all_discovered : Nat) :
    Nat → Nat → List Nat → List queue_entry → (Nat × Nat) →
    Except Err (List queue_entry × (Nat × Nat) × List Nat)
  | 0, _, _, _, _ => .error .outOfFuel
  | fuel + 1, sel_map, selected, queue, scr =>
    if ¬ compare_trace_minis all_discovered sel_map then .ok (queue, scr, selected)
    else
      let ps := (List.range queue.length).foldl (set_NCDm_pick_step ctx selected sel_map)
        ⟨2 ^ 32 - 1, 0, none, false, queue, scr⟩
      if ¬ ps.found_cov then .error (.noNewCoverage sel_map)
      else
        match ps.best_candidate with
        | none => .error .nullDeref
        | some c =>
          let sel_map' := sel_map ||| (getQ ps.queue c).trace_mini.getD 0
          let queue' := setQ ps.queue c (fun e => {e with ncdm_favored := true})
          set_NCDm_loop ctx all_discovered fuel sel_map' (selected ++ [c]) queue' ps.scr

/-- `set_NCDm_favored` (afl-fuzz-bitmap.c:263–370): clear all `ncdm_favored` flags,
compute the minimized discovered-coverage vector from the inverted virgin map, run the
greedy cover loop, then (for the status printout) compute the NCDm of the `favored`
entries, which fills their compressed-length caches. -/
def set_NCDm_favored (ctx : Ctx) (scr : Nat × Nat) (virgin_bits : List Nat)
    (queue0 : List queue_entry) :
    Except Err (List queue_entry × (Nat × Nat) × List Nat) := do
  let queue1 := queue0.map (fun e => {e with ncdm_favored := false})
  let all_discovered := all_discovered_bits virgin_bits
  let (q2, scr2, selected) ← set_NCDm_loop ctx all_discovered (2 ^ virgin_bits.length)
    0 [] queue1 scr
  let favs := (List.range q2.length).filter (fun i => (getQ q2 i).favored)
  let c := calc_NCDm ctx scr2 (favs.map (getQ q2))
  .ok (writeBackQ q2 favs c.2.1, c.2.2, selected)

/-- The inputs determining which path `save_if_interesting` (afl-fuzz-bitmap.c:1468)
takes up to the read of `res`: the outcomes of the externally-computed checks are
oracle fields. -/
structure sif_flags where
  len : Nat
  fault : Nat
  crash_mode : Nat
  ncd_based_queue : Bool
  hashfuzz_enabled : Bool
  hashfuzz_new_partition : Bool
  new_bits : Nat
  calibration_res : Nat

/-- What the comparison `res == FSRV_RUN_ERROR` (afl-fuzz-bitmap.c:1652) observes. -/
inductive res_read_result where
  | notReached
  | readUninitialized
  | readInitialized (v : Nat)
deriving DecidableEq

/-- The dataflow of the local `res` in the normal path of `save_if_interesting`
(afl-fuzz-bitmap.c:1469–1656): `res` is declared without an initializer (line 1475)
and assigned only by the `!afl->ncd_based_queue` calibration branch (line 1649)
before being compared against `FSRV_RUN_ERROR` (line 1652). -/
def save_if_interesting_res_read (f : sif_flags) : res_read_result :=
  let res : Option Nat := none
  if f.len = 0 then .notReached
  else if f.fault = f.crash_mode then
    -- new_bits = has_new_bits_unclassified(...); the ncd path runs
    -- save_to_edge_entries, which never assigns res
    let interesting := f.new_bits ≠ 0 ∨ (f.hashfuzz_enabled ∧ f.hashfuzz_new_partition)
    if ¬ interesting then .notReached
    else
      let res := if ¬ f.ncd_based_queue then some f.calibration_res else res
      match res with
      | none => .readUninitialized
      | some v => .readInitialized v
  else .notReached

/-- A queue entry with the given testcase bytes, cached compressed length and packed
coverage vector (all other fields cleared); used for the concrete instances below. -/
def mkEntry (bytes : List Nat) (cl : Nat) (mask : Option Nat) : queue_entry :=
  {(default : queue_entry) with len := bytes.length, testcase_buf := bytes,
                                compressed_len := cl, trace_mini := mask}

/-- A concrete context: the compressor measures length plus one, the hash sums the
bytes, calibration yields fixed numbers. -/
def exCtx : Ctx :=
  {C := fun l => l.length + 1, LZ4_compressBound := fun n => n + 16,
   hash64 := fun l => l.foldl (fun a b => a + b) 0 + 100 * l.length,
   get_fav_factor := fun _ => 1, cal := ⟨0, 5, 7, 3, 1⟩}

/-- A concrete initial fuzzer state: empty queue and index, one entry per cell. -/
def exState0 : afl_state :=
  {queue_buf := [], edge_entries := fun _ => default, edge_entry_count := 8,
   ncd_entries_per_edge := 1, queue_input_hashmap := [], top_rated := fun _ => none,
   pending_edge_entries := 0, discovered_edge_entries := 0, total_execs := 0,
   prevLongest := 5, maxCompressedLen := 21}

/-- A one-byte classified trace hitting edge 0 once. -/
def exTrace : List Nat := [1]

/-- The concrete input submitted in the runs below. -/
def exQ : queue_entry := mkEntry [5] 0 none

/-- The state after the first processing of `exQ`'s trace. -/
def exS1 : afl_state :=
  match save_to_edge_entries exCtx exTrace exState0 exQ with
  | .ok p => p.1
  | .error _ => exState0

/-- The state after re-processing the identical classified trace and input. -/
def exS2 : afl_state :=
  match save_to_edge_entries exCtx exTrace exS1 exQ with
  | .ok p => p.1
  | .error _ => exS1

/-- A concrete entry list with consistent compressed-length caches (for `exCtx`). -/
def exEsC2 : List queue_entry := [mkEntry [3] 2 none, mkEntry [4, 5] 3 none]

/-- A concrete loop state whose current cell is saturated with no entries
(`ncd_entries_per_edge = 0`) and whose query entry already has its `trace_mini`
filled, for exercising the no-eviction path. -/
def exLsC4 : save_loop_state :=
  ⟨{exState0 with ncd_entries_per_edge := 0}, mkEntry [5] 0 (some 1), false, false,
   exCtx.cal, false⟩

/-- The selection-relevant projection of a queue entry: the `ncdm_favored` flag and
the packed coverage vector — the fields the cover computation of `set_NCDm_favored`
reads, and exactly the fields `calc_NCDm`'s cache fills leave untouched. -/
def projE (e : queue_entry) : Bool × Option Nat := (e.ncdm_favored, e.trace_mini)

/-- The index-relevant projection of a queue entry: its `input_hash` and `duplicates`
fields — exactly what the input-hash index invariant reads from the queue. -/
def projH (e : queue_entry) : Nat × Nat := (e.input_hash, e.duplicates)

/-- A one-entry queue whose entry covers the single discovered bit of `exVirgin`. -/
def exQC5 : queue_entry := mkEntry [1] 2 (some 1)

/-- A virgin map with exactly one cleared bit (byte 254 = 0b11111110). -/
def exVirgin : List Nat := [254]

/-- The result of the concrete `set_NCDm_favored` run of the C5 witness. -/
def exC5run : List queue_entry × (Nat × Nat) × List Nat :=
  (set_NCDm_favored exCtx (5, 7) exVirgin [exQC5]).toOption.getD ([], (0, 0), [])

/-- The state after rehoming queue entry 0 of `exS1` under `exQC5`'s input hash. -/
def exMoveS : afl_state :=
  match move_queue_entry_to_correct_input_hash exS1 0 exQC5 with
  | .ok st => st
  | .error _ => exS1

/-! ### Theorems -/

theorem count_class_lookup8_le (x : Nat) : count_class_lookup8 x ≤ 128 := by
  unfold count_class_lookup8
  repeat' split
  all_goals omega

set_option maxRecDepth 4000 in
theorem count_class_lookup8_idem_iff (x : Nat) (hx : x < 256) :
    (count_class_lookup8 (count_class_lookup8 x) = count_class_lookup8 x ↔
      x ≤ 2 ∨ 32 ≤ x) := by
  revert hx
  revert x
  decide

/-- C6 (amended): hit-count classification is idempotent only away from the classes
4, 8, 16 and 32: for a byte `v < 256`,
`count_class_lookup8[count_class_lookup8[v]] == count_class_lookup8[v]` holds iff
`v ≤ 2` or `v ≥ 32`; on `3 ≤ v ≤ 31` the double classification doubles the class, and
`classify_counts (classify_counts t) = classify_counts t` for exactly the traces all
of whose bytes avoid 3..31. -/
theorem classify_counts_idempotent :
    (∀ v : Nat, v < 256 →
       (count_class_lookup8 (count_class_lookup8 v) = count_class_lookup8 v ↔
         v ≤ 2 ∨ 32 ≤ v)) ∧
    (∀ v : Nat, v < 32 → 3 ≤ v →
       count_class_lookup8 (count_class_lookup8 v) = 2 * count_class_lookup8 v) ∧
    (∀ t : List Nat, (∀ b ∈ t, b % 256 ≤ 2 ∨ 32 ≤ b % 256) →
       classify_counts (classify_counts t) = classify_counts t) := by
  refine ⟨count_class_lookup8_idem_iff, by decide, ?_⟩
  intro t ht
  induction t with
  | nil => rfl
  | cons b bs ih =>
      have hb : count_class_lookup8 (b % 256) % 256 = count_class_lookup8 (b % 256) :=
        Nat.mod_eq_of_lt (lt_of_le_of_lt (count_class_lookup8_le _) (by norm_num))
      have hmem : b % 256 ≤ 2 ∨ 32 ≤ b % 256 := ht b (List.mem_cons_self b bs)
      have hrest : ∀ x ∈ bs, x % 256 ≤ 2 ∨ 32 ≤ x % 256 :=
        fun x hx => ht x (List.mem_cons_of_mem b hx)
      simp only [classify_counts, List.map_cons, List.map_map] at ih ⊢
      rw [hb, (count_class_lookup8_idem_iff _ (Nat.mod_lt _ (by norm_num))).2 hmem]
      exact congrArg _ (by simpa [classify_counts, List.map_map] using ih hrest)

/-- C6 counterexample: classifying the one-byte trace `[3]` twice yields `[8]`, not
the singly-classified `[4]` — the table maps 3 ↦ 4 but 4 ↦ 8. -/
theorem classify_counts_idempotent_counterexample :
    classify_counts [3] = [4] ∧ classify_counts (classify_counts [3]) = [8] ∧
    classify_counts (classify_counts [3]) ≠ classify_counts [3] := by decide

/-- C6 witness: the amended characterization applied at bytes 64 and 5 and at a
trace avoiding 3..31. -/
theorem classify_counts_idempotent_witness :
    (count_class_lookup8 (count_class_lookup8 64) = count_class_lookup8 64) ∧
    (count_class_lookup8 (count_class_lookup8 5) = 2 * count_class_lookup8 5) ∧
    classify_counts (classify_counts [1, 64]) = classify_counts [1, 64] :=
  ⟨(classify_counts_idempotent.1 64 (by decide)).2 (by decide),
   classify_counts_idempotent.2.1 5 (by decide) (by decide),
   classify_counts_idempotent.2.2 [1, 64] (by decide)⟩

/-- C9: on the normal path (`fault == crash_mode`) with the NCD-based queue enabled
and the input deemed interesting, `save_if_interesting` reaches the comparison
`res == FSRV_RUN_ERROR` with `res` never having been assigned. -/
theorem save_if_interesting_reads_uninitialized_res :
    save_if_interesting_res_read
      {len := 1, fault := 0, crash_mode := 0, ncd_based_queue := true,
       hashfuzz_enabled := false, hashfuzz_new_partition := false, new_bits := 2,
       calibration_res := 0} = .readUninitialized := rfl

/-- C10: in `move_queue_entry_to_correct_input_hash` the field `found->hash` is read
before `found` is checked for null, so whenever the evictee's `input_hash` is absent
from the index the call is a null dereference, and the FATAL branch reporting a
missing `queue_input_hash` can never fire. -/
theorem move_missing_hash_is_null_deref :
    (∀ st ev new,
       hashmap_get st.queue_input_hashmap (getQ st.queue_buf ev).input_hash = none →
       move_queue_entry_to_correct_input_hash st ev new = .error .nullDeref) ∧
    (∀ st ev new,
       move_queue_entry_to_correct_input_hash st ev new ≠ .error .missingQueueInputHash) := by
  constructor
  · intro st ev new h
    simp [move_queue_entry_to_correct_input_hash, h]
  · intro st ev new h
    cases hg : hashmap_get st.queue_input_hashmap (getQ st.queue_buf ev).input_hash with
    | none =>
        simp [move_queue_entry_to_correct_input_hash, hg] at h
    | some found =>
        simp only [move_queue_entry_to_correct_input_hash, hg, Option.isNone_some,
          Bool.false_eq_true, if_false] at h
        split at h
        · exact Err.noConfusion (Except.error.inj h)
        · split at h
          · exact Err.noConfusion (Except.error.inj h)
          · split at h <;> exact Except.noConfusion h

/-- C10 witness: a concrete state whose index lacks the evictee's hash. -/
theorem move_missing_hash_is_null_deref_witness :
    move_queue_entry_to_correct_input_hash exState0 0 exQ = .error .nullDeref :=
  move_missing_hash_is_null_deref.1 exState0 0 exQ (by decide)

/-- C8 (amended): across `calc_NCDm` and `fill_trace_mini_and_compressed_len` the
scratch capacity `prevLongest` never decreases and, whenever it changes, becomes a
power of two, namely `4 * 2 ^ ⌊log2 demand⌋` — four times the demand rounded DOWN to a
power of two (strictly above the demand and at most four times it), not the demand
rounded up to the next power of two multiplied by four. -/
theorem scratch_growth_spec (ctx : Ctx) (scr : Nat × Nat) (totalLen len : Nat) :
    scr.1 ≤ (grow_scratch_calc ctx scr totalLen).1 ∧
    scr.1 ≤ (grow_scratch_fill ctx scr len).1 ∧
    ((grow_scratch_calc ctx scr totalLen).1 = scr.1 ∨
       is_pow_two (grow_scratch_calc ctx scr totalLen).1) ∧
    ((grow_scratch_fill ctx scr len).1 = scr.1 ∨
       is_pow_two (grow_scratch_fill ctx scr len).1) ∧
    (scr.1 ≤ totalLen →
       (grow_scratch_calc ctx scr totalLen).1 = 4 * 2 ^ Nat.log2 totalLen ∧
       (1 ≤ totalLen → totalLen < (grow_scratch_calc ctx scr totalLen).1 ∧
          (grow_scratch_calc ctx scr totalLen).1 ≤ 4 * totalLen)) ∧
    (2 * len > scr.1 →
       (grow_scratch_fill ctx scr len).1 = 4 * 2 ^ Nat.log2 len ∧
       (1 ≤ len → len < (grow_scratch_fill ctx scr len).1 ∧
          (grow_scratch_fill ctx scr len).1 ≤ 4 * len)) ∧
    (∀ es, (calc_NCDm ctx scr es).2.2 =
       grow_scratch_calc ctx scr (es.foldl (fun t e => t + e.len) 0)) ∧
    (∀ trace q r, fill_trace_mini_and_compressed_len ctx trace scr q = .ok r →
       r.1 = grow_scratch_fill ctx scr q.len) := by
  have hpow : ∀ d : Nat, next_scratch_size d = 4 * 2 ^ Nat.log2 d := by
    intro d
    unfold next_scratch_size
    rw [pow_succ, pow_succ]
    ring
  have hup : ∀ d : Nat, 1 ≤ d → d < next_scratch_size d ∧ next_scratch_size d ≤ 4 * d := by
    intro d hd
    have h1 : d < 2 ^ (Nat.log2 d + 1) := Nat.lt_log2_self
    have h2 : 2 ^ Nat.log2 d ≤ d := Nat.log2_self_le (by omega)
    constructor
    · calc d < 2 ^ (Nat.log2 d + 1) := h1
        _ ≤ 2 ^ (Nat.log2 d + 2) := Nat.pow_le_pow_right (by norm_num) (by omega)
        _ = next_scratch_size d := rfl
    · rw [hpow]; omega
  have hd_le : ∀ d : Nat, d ≤ next_scratch_size d := by
    intro d
    rcases Nat.eq_zero_or_pos d with h0 | h0
    · simp [h0]
    · exact le_of_lt (hup d h0).1
  have h2d : ∀ d : Nat, 1 ≤ d → 2 * d ≤ next_scratch_size d := by
    intro d hd
    have h1 : d < 2 ^ (Nat.log2 d + 1) := Nat.lt_log2_self
    have : 2 * d < 2 * 2 ^ (Nat.log2 d + 1) := by omega
    calc 2 * d ≤ 2 * 2 ^ (Nat.log2 d + 1) := by omega
      _ = next_scratch_size d := by rw [next_scratch_size, pow_succ, pow_succ]; ring
  have hcalc_mono : scr.1 ≤ (grow_scratch_calc ctx scr totalLen).1 := by
    by_cases hT : scr.1 ≤ totalLen
    · simp only [grow_scratch_calc, if_pos hT]
      exact le_trans hT (hd_le _)
    · simp only [grow_scratch_calc, if_neg hT]
      exact le_refl _
  have hfill_mono : scr.1 ≤ (grow_scratch_fill ctx scr len).1 := by
    by_cases hT : 2 * len > scr.1
    · simp only [grow_scratch_fill, if_pos hT]
      rcases Nat.eq_zero_or_pos len with h0 | h0
      · omega
      · have := h2d len h0; omega
    · simp only [grow_scratch_fill, if_neg hT]
      exact le_refl _
  refine ⟨hcalc_mono, hfill_mono, ?_, ?_, ?_, ?_, ?_, ?_⟩
  · by_cases hT : scr.1 ≤ totalLen
    · simp only [grow_scratch_calc, if_pos hT]
      exact Or.inr ⟨Nat.log2 totalLen + 2, rfl⟩
    · simp only [grow_scratch_calc, if_neg hT]
      exact Or.inl trivial
  · by_cases hT : 2 * len > scr.1
    · simp only [grow_scratch_fill, if_pos hT]
      exact Or.inr ⟨Nat.log2 len + 2, rfl⟩
    · simp only [grow_scratch_fill, if_neg hT]
      exact Or.inl trivial
  · intro hT
    simp only [grow_scratch_calc, if_pos hT]
    exact ⟨hpow _, fun h1 => (hup _ h1)⟩
  · intro hT
    simp only [grow_scratch_fill, if_pos hT]
    exact ⟨hpow _, fun h1 => (hup _ h1)⟩
  · intro es; rfl
  · intro trace q r h
    simp only [fill_trace_mini_and_compressed_len] at h
    split at h
    · exact Except.noConfusion h
    · cases h; rfl

/-- C8 witness: the growth branches and the `calc_NCDm`/fill tie-ins at demand 5. -/
theorem scratch_growth_spec_witness :
    (grow_scratch_calc exCtx (0, 0) 5).1 = 4 * 2 ^ Nat.log2 5 ∧
    (grow_scratch_fill exCtx (0, 0) 5).1 = 4 * 2 ^ Nat.log2 5 ∧
    ((fill_trace_mini_and_compressed_len exCtx [1] (0, 0)
        (mkEntry [5] 0 none)).toOption.getD ((0, 0), default)).1 =
      grow_scratch_fill exCtx (0, 0) (mkEntry [5] 0 none).len :=
  ⟨((scratch_growth_spec exCtx (0, 0) 5 5).2.2.2.2.1 (by decide)).1,
   ((scratch_growth_spec exCtx (0, 0) 5 5).2.2.2.2.2.1 (by decide)).1,
   (scratch_growth_spec exCtx (0, 0) 5 5).2.2.2.2.2.2.2 [1] (mkEntry [5] 0 none) _ rfl⟩

/-- C8 counterexample: at demand 5 the grown capacity is `16 = 4 * 2 ^ ⌊log2 5⌋`,
not `4 * 8 = 32` as "demand rounded up to the next power of two times the 4× headroom"
would give. -/
theorem scratch_growth_counterexample :
    (grow_scratch_calc exCtx (0, 0) 5).1 = 16 ∧ next_pow2_spec 5 = 8 ∧
    (grow_scratch_calc exCtx (0, 0) 5).1 ≠ 4 * next_pow2_spec 5 := by
  have h5 : Nat.log2 5 = 2 := by
    rw [Nat.log2]
    norm_num
    rw [Nat.log2]
    norm_num
    rw [Nat.log2]
    norm_num
  have h1 : (grow_scratch_calc exCtx (0, 0) 5).1 = 16 := by
    simp [grow_scratch_calc, next_scratch_size, h5]
  have h2 : next_pow2_spec 5 = 8 := by decide
  exact ⟨h1, h2, by rw [h1, h2]; norm_num⟩

theorem foldl_keepmin_map {α : Type} (f : α → Nat) (l : List α) (a : Nat) :
    l.foldl (fun m x => if f x < m then f x else m) a = ((a :: l.map f).min?).getD 0 := by
  induction l generalizing a with
  | nil => rfl
  | cons x xs ih =>
      have hx : (if f x < a then f x else a) = min a (f x) := by
        rw [Nat.min_def]; split <;> split <;> omega
      show xs.foldl (fun m x => if f x < m then f x else m) (if f x < a then f x else a) = _
      rw [hx]
      exact ih (min a (f x))

theorem foldl_keepmax_map {α : Type} (f : α → Nat) (l : List α) (a : Nat) :
    l.foldl (fun m x => if f x > m then f x else m) a = ((a :: l.map f).max?).getD 0 := by
  induction l generalizing a with
  | nil => rfl
  | cons x xs ih =>
      have hx : (if f x > a then f x else a) = max a (f x) := by
        rw [Nat.max_def]; split <;> split <;> omega
      show xs.foldl (fun m x => if f x > m then f x else m) (if f x > a then f x else a) = _
      rw [hx]
      exact ih (max a (f x))

theorem min?_getD_cons_of_le (a : Nat) (l : List Nat) (hne : l ≠ [])
    (hb : ∀ x ∈ l, x ≤ a) : ((a :: l).min?).getD 0 = (l.min?).getD 0 := by
  cases l with
  | nil => exact absurd rfl hne
  | cons x xs =>
      show (some (xs.foldl min (min a x))).getD 0 = (some (xs.foldl min x)).getD 0
      rw [Nat.min_eq_right (hb x (List.mem_cons_self x xs))]

theorem max?_getD_cons_zero (l : List Nat) (hne : l ≠ []) :
    ((0 :: l).max?).getD 0 = (l.max?).getD 0 := by
  cases l with
  | nil => exact absurd rfl hne
  | cons x xs =>
      show (some (xs.foldl max (max 0 x))).getD 0 = (some (xs.foldl max x)).getD 0
      rw [Nat.zero_max]

/-- C2: for a non-empty entry list with consistent compressed-length caches,
`calc_NCDm` returns `(C(e1 ∥ … ∥ en) − min cᵢ) / max_i C(concat without eᵢ)`,
and 0 when that maximum is 0. -/
theorem calc_NCDm_formula (ctx : Ctx) (scr : Nat × Nat) (es : List queue_entry)
    (hne : es ≠ [])
    (hcache : ∀ e ∈ es, e.compressed_len = ctx.C (payload e))
    (hbound : ∀ e ∈ es, ctx.C (payload e) < 2 ^ 32) :
    (calc_NCDm ctx scr es).1 =
      (if ((List.range es.length).map
            (fun i => ctx.C (((es.eraseIdx i).map payload).flatten))).max?.getD 0 = 0
       then 0
       else ((ctx.C ((es.map payload).flatten) : ℚ) -
              (((es.map (fun e => ctx.C (payload e))).min?.getD 0 : Nat) : ℚ)) /
            ((((List.range es.length).map
                (fun i => ctx.C (((es.eraseIdx i).map payload).flatten))).max?.getD 0
               : Nat) : ℚ)) := by
  have hcc : ∀ e ∈ es, (cache_compressed_len ctx e).compressed_len = ctx.C (payload e) := by
    intro e he
    unfold cache_compressed_len
    split
    · rfl
    · exact hcache e he
  have hmapcc : (es.map (cache_compressed_len ctx)).map (fun e => e.compressed_len)
      = es.map (fun e => ctx.C (payload e)) := by
    rw [List.map_map]
    exact List.map_congr_left hcc
  have hmin : (es.map (cache_compressed_len ctx)).foldl
      (fun m e => if e.compressed_len < m then e.compressed_len else m) (2 ^ 32 - 1)
      = (es.map (fun e => ctx.C (payload e))).min?.getD 0 := by
    rw [foldl_keepmin_map (fun e => e.compressed_len) (es.map (cache_compressed_len ctx))
      (2 ^ 32 - 1), hmapcc]
    apply min?_getD_cons_of_le
    · simpa using hne
    · intro x hx
      obtain ⟨e, he, rfl⟩ := List.mem_map.1 hx
      have := hbound e he
      omega
  have hmax : (List.range es.length).foldl
      (fun m leftOut =>
        if ctx.C (((es.eraseIdx leftOut).map payload).flatten) > m
        then ctx.C (((es.eraseIdx leftOut).map payload).flatten) else m) 0
      = ((List.range es.length).map
          (fun i => ctx.C (((es.eraseIdx i).map payload).flatten))).max?.getD 0 := by
    rw [foldl_keepmax_map (fun i => ctx.C (((es.eraseIdx i).map payload).flatten))
      (List.range es.length) 0]
    apply max?_getD_cons_zero
    have hlen : es.length ≠ 0 := fun h => hne (List.eq_nil_of_length_eq_zero h)
    simp [List.map_eq_nil_iff, List.range_eq_nil, hlen]
  unfold calc_NCDm
  dsimp only
  rw [hmin, hmax]

/-- C2 witness: the formula at a concrete two-entry list under `exCtx`. -/
theorem calc_NCDm_formula_witness :
    (calc_NCDm exCtx (0, 0) exEsC2).1 =
      (if ((List.range exEsC2.length).map
            (fun i => exCtx.C (((exEsC2.eraseIdx i).map payload).flatten))).max?.getD 0 = 0
       then 0
       else ((exCtx.C ((exEsC2.map payload).flatten) : ℚ) -
              (((exEsC2.map (fun e => exCtx.C (payload e))).min?.getD 0 : Nat) : ℚ)) /
            ((((List.range exEsC2.length).map
                (fun i => exCtx.C (((exEsC2.eraseIdx i).map payload).flatten))).max?.getD 0
               : Nat) : ℚ)) :=
  calc_NCDm_formula exCtx (0, 0) exEsC2 (by decide) (by decide) (by decide)

/-- C7: evaluation of `calc_normalised_levenshtein_dist` on the testcases "ab" and
"aa". The DP rows are sized `len_2` and iterated only `len_1 - 1` times, so the code
computes the edit distance of the two strings with their last characters dropped
(here 0) instead of the classical distance (here 1), and returns 1 instead of
`(2 - 1) / 2 = 1/2`. -/
theorem calc_normalised_levenshtein_dist_eval :
    calc_normalised_levenshtein_dist (mkEntry [97, 98] 0 none) (mkEntry [97, 97] 0 none)
        = .ok 1 ∧
    levenshtein [97, 98] [97, 97] = 1 ∧
    ((2 : ℚ) - (levenshtein [97, 98] [97, 97] : ℚ)) / (2 : ℚ) = 1 / 2 ∧
    (1 : ℚ) ≠ 1 / 2 := by
  refine ⟨?_, ?_, ?_, by norm_num⟩
  · show calc_normalised_levenshtein_dist (mkEntry [97, 98] 0 none)
      (mkEntry [97, 97] 0 none) = .ok 1
    simp only [calc_normalised_levenshtein_dist, mkEntry, payload, code_edit_dist,
      lev_next_row, LEVMIN]
    norm_num [List.range_succ]
  · simp [levenshtein]
  · simp [levenshtein]
    norm_num

theorem map_eraseIdx' {α β : Type} (f : α → β) (l : List α) (i : Nat) :
    (l.map f).eraseIdx i = (l.eraseIdx i).map f := by
  induction l generalizing i with
  | nil => rfl
  | cons x xs ih =>
      cases i with
      | zero => rfl
      | succ j => simp [List.eraseIdx, ih j]

theorem compressed_key_cache (ctx : Ctx) (e : queue_entry) :
    compressed_key ctx (cache_compressed_len ctx e) = compressed_key ctx e := by
  unfold compressed_key cache_compressed_len payload
  split
  · simp
  · rfl

theorem map_key_mapIdx {α β : Type} (key : α → β) (f : Nat → α → α) (l : List α)
    (h : ∀ i a, key (f i a) = key a) : (l.mapIdx f).map key = l.map key := by
  induction l generalizing f with
  | nil => rfl
  | cons x xs ih =>
      rw [List.mapIdx_cons, List.map_cons, List.map_cons, h 0 x,
        ih (fun i => f (i + 1)) (fun i a => h (i + 1) a)]

theorem calc_NCDm_fst_eq_keys (ctx : Ctx) (scr : Nat × Nat) (es : List queue_entry) :
    (calc_NCDm ctx scr es).1 = NCDm_keys ctx.C (es.map (compressed_key ctx)) := by
  unfold calc_NCDm NCDm_keys
  dsimp only
  have h1 : List.foldl (fun (m : Nat) e => if e.compressed_len < m then e.compressed_len
        else m) (2 ^ 32 - 1) (es.map (cache_compressed_len ctx))
      = List.foldl (fun (m : Nat) k => if k.2 < m then k.2 else m) (2 ^ 32 - 1)
        (es.map (compressed_key ctx)) := by
    rw [List.foldl_map, List.foldl_map]
    apply List.foldl_ext
    intro a e _
    rfl
  have h2 : (es.map payload).flatten
      = ((es.map (compressed_key ctx)).map Prod.fst).flatten := by
    rw [List.map_map]
    exact congrArg _ (List.map_congr_left (fun e _ => rfl))
  have h3 : ∀ i : Nat, ((es.eraseIdx i).map payload).flatten
      = (((es.map (compressed_key ctx)).eraseIdx i).map Prod.fst).flatten := by
    intro i
    rw [map_eraseIdx', List.map_map]
    exact congrArg _ (List.map_congr_left (fun e _ => rfl))
  have h4 : List.foldl (fun (m : Nat) leftOut =>
        if ctx.C (((es.eraseIdx leftOut).map payload).flatten) > m
        then ctx.C (((es.eraseIdx leftOut).map payload).flatten) else m) 0
        (List.range es.length)
      = List.foldl (fun (m : Nat) i =>
          if ctx.C ((((es.map (compressed_key ctx)).eraseIdx i).map Prod.fst).flatten) > m
          then ctx.C ((((es.map (compressed_key ctx)).eraseIdx i).map Prod.fst).flatten)
          else m) 0 (List.range (es.map (compressed_key ctx)).length) := by
    rw [List.length_map]
    apply List.foldl_ext
    intro a i _
    rw [h3 i]
  rw [h1, h2, h4]

theorem calc_NCDm_val_eq_keys (ctx : Ctx) (es : List queue_entry) :
    calc_NCDm_val ctx es = NCDm_keys ctx.C (es.map (compressed_key ctx)) :=
  calc_NCDm_fst_eq_keys ctx (0, 0) es

theorem find_eviction_fold_spec (ctx : Ctx) (es0 : List queue_entry) (ne0 : queue_entry)
    (scr0 : Nat × Nat) (best0 : ℚ) :
    ∀ k, k ≤ es0.length →
      (((List.range k).foldl (find_eviction_step ctx)
          (es0, ne0, scr0, best0, (-1 : Int))).1.map (compressed_key ctx)
        = es0.map (compressed_key ctx)) ∧
      compressed_key ctx ((List.range k).foldl (find_eviction_step ctx)
          (es0, ne0, scr0, best0, (-1 : Int))).2.1 = compressed_key ctx ne0 ∧
      ((((List.range k).foldl (find_eviction_step ctx)
            (es0, ne0, scr0, best0, (-1 : Int))).2.2.2.2 = -1 ∧
        ((List.range k).foldl (find_eviction_step ctx)
            (es0, ne0, scr0, best0, (-1 : Int))).2.2.2.1 = best0 ∧
        ∀ i < k, replacement_score ctx es0 ne0 i ≤ best0) ∨
       (∃ i, i < k ∧
        ((List.range k).foldl (find_eviction_step ctx)
            (es0, ne0, scr0, best0, (-1 : Int))).2.2.2.2 = (i : Int) ∧
        ((List.range k).foldl (find_eviction_step ctx)
            (es0, ne0, scr0, best0, (-1 : Int))).2.2.2.1 =
          replacement_score ctx es0 ne0 i ∧
        best0 < replacement_score ctx es0 ne0 i ∧
        ∀ j < k, replacement_score ctx es0 ne0 j ≤ replacement_score ctx es0 ne0 i)) := by
  intro k
  induction k with
  | zero =>
      intro _
      exact ⟨rfl, rfl, Or.inl ⟨rfl, rfl, fun i hi => absurd hi (Nat.not_lt_zero i)⟩⟩
  | succ k ih =>
      intro hk1
      have hk : k ≤ es0.length := Nat.le_of_succ_le hk1
      obtain ⟨hkeys, hne, hbr⟩ := ih hk
      rw [List.range_succ, List.foldl_append]
      set A := (List.range k).foldl (find_eviction_step ctx)
        (es0, ne0, scr0, best0, (-1 : Int)) with hA
      obtain ⟨es1, ne1, scr1, best1, cand1⟩ := A
      simp only [List.foldl_cons, List.foldl_nil]
      have hscore : (calc_NCDm ctx scr1 (es1.eraseIdx k ++ [ne1])).1
          = replacement_score ctx es0 ne0 k := by
        rw [calc_NCDm_fst_eq_keys, replacement_score, calc_NCDm_val_eq_keys]
        have : (es1.eraseIdx k ++ [ne1]).map (compressed_key ctx)
            = (es0.eraseIdx k ++ [ne0]).map (compressed_key ctx) := by
          rw [List.map_append, List.map_append, ← map_eraseIdx', ← map_eraseIdx', hkeys]
          simp only [List.map_cons, List.map_nil] at hne ⊢
          rw [hne]
        rw [this]
      have hkeys' : ((es1.mapIdx (fun j e => if j = k then e
            else cache_compressed_len ctx e)).map (compressed_key ctx))
          = es0.map (compressed_key ctx) := by
        rw [map_key_mapIdx (compressed_key ctx) _ es1 ?h, hkeys]
        case h =>
          intro i a
          split
          · rfl
          · exact compressed_key_cache ctx a
      have hne' : compressed_key ctx (cache_compressed_len ctx ne1)
          = compressed_key ctx ne0 := by
        rw [compressed_key_cache, hne]
      unfold find_eviction_step
      dsimp only
      rw [hscore]
      by_cases hlt : best1 < replacement_score ctx es0 ne0 k
      · rw [if_pos hlt]
        refine ⟨hkeys', hne', Or.inr ⟨k, Nat.lt_succ_self k, rfl, rfl, ?_, ?_⟩⟩
        · rcases hbr with ⟨_, hb, _⟩ | ⟨i, _, _, hb, hgt, _⟩
          · exact hb ▸ hlt
          · exact lt_trans hgt (hb ▸ hlt)
        · intro j hj
          rcases Nat.lt_succ_iff_lt_or_eq.1 hj with hj | rfl
          · rcases hbr with ⟨_, hb, hall⟩ | ⟨i, _, _, hb, _, hall⟩
            · exact le_of_lt (lt_of_le_of_lt (hall j hj) (hb ▸ hlt))
            · exact le_of_lt (lt_of_le_of_lt (hall j hj) (hb ▸ hlt))
          · exact le_refl _
      · rw [if_neg hlt]
        refine ⟨hkeys', hne', ?_⟩
        rcases hbr with ⟨hc, hb, hall⟩ | ⟨i, hik, hc, hb, hgt, hall⟩
        · refine Or.inl ⟨hc, hb, ?_⟩
          intro j hj
          rcases Nat.lt_succ_iff_lt_or_eq.1 hj with hj | rfl
          · exact hall j hj
          · rw [← hb]; exact le_of_not_lt hlt
        · refine Or.inr ⟨i, Nat.lt_succ_of_lt hik, hc, hb, hgt, ?_⟩
          intro j hj
          rcases Nat.lt_succ_iff_lt_or_eq.1 hj with hj | rfl
          · exact hall j hj
          · rw [← hb]; exact le_of_not_lt hlt

theorem foldl_set_length (l : List (Nat × queue_entry)) (q : List queue_entry) :
    (l.foldl (fun acc p => acc.set p.1 p.2) q).length = q.length := by
  induction l generalizing q with
  | nil => rfl
  | cons p ps ih => rw [List.foldl_cons, ih, List.length_set]

theorem writeBackQ_length (q : List queue_entry) (ids : List Nat)
    (es : List queue_entry) : (writeBackQ q ids es).length = q.length :=
  foldl_set_length _ q

theorem except_bind_ok {α β : Type} (a : α) (f : α → Except Err β) :
    ((Except.ok a : Except Err α) >>= f) = f a := rfl

/-- C4: with `forced == false`, `find_eviction_candidate` returns -1 unless some
replacement index makes the diversity score of (cell entries without that index, plus
the new entry) strictly greater than the cell's recorded score; when at least one
does, it returns an index achieving the maximum replacement score; and on a -1 return
the caller performs no eviction: the cell keeps its entries and replacement count, the
hash index and queue membership are untouched, and nothing is marked inserted. -/
theorem find_eviction_candidate_spec :
    (∀ (ctx : Ctx) (scr : Nat × Nat) (score : ℚ) (existing : List queue_entry)
       (new_entry : queue_entry), existing.length ≤ 32 →
      (∃ es' ne' scr', find_eviction_candidate ctx scr score existing new_entry false
          = .ok (-1, es', ne', scr') ∧
        ∀ i < existing.length, replacement_score ctx existing new_entry i ≤ score) ∨
      (∃ i es' ne' scr', i < existing.length ∧
        find_eviction_candidate ctx scr score existing new_entry false
          = .ok ((i : Int), es', ne', scr') ∧
        score < replacement_score ctx existing new_entry i ∧
        ∀ j < existing.length, replacement_score ctx existing new_entry j ≤
          replacement_score ctx existing new_entry i)) ∧
    (∀ (ctx : Ctx) (trace : List Nat) (k : Nat) (ls : save_loop_state)
       (scr2 : Nat × Nat) (q' : queue_entry)
       (r : Int × List queue_entry × queue_entry × (Nat × Nat)),
      trace.getD k 0 % 256 ≠ 0 →
      (let b := trace.getD k 0 % 256
       let pos := 8 * k + reps_of (count_class_lookup8 b)
       let cell0 := ls.st.edge_entries pos
       let cell1 : edge_entry := {cell0 with hit_count := cell0.hit_count + 1}
       cell1.entries.any (fun id =>
         (getQ ls.st.queue_buf id).input_hash == ls.q_entry.input_hash) = false ∧
       ¬ (cell1.entries.length < ls.st.ncd_entries_per_edge) ∧
       ls.is_duplicate = false ∧
       cell1.entries.findIdx? (fun id =>
         (getQ ls.st.queue_buf id).duplicates != 0) = none ∧
       should_calc_NCD cell1.hit_count = true ∧
       ensure_trace_mini ctx trace (ls.st.prevLongest, ls.st.maxCompressedLen)
         ls.q_entry = .ok (scr2, q') ∧
       find_eviction_candidate ctx scr2 cell1.normalised_compression_dist
         (cell1.entries.map (getQ ls.st.queue_buf)) q' false = .ok r ∧
       r.1 = -1) →
      ∃ ls', save_to_edge_entries_step ctx trace k ls = .ok ls' ∧
        (∀ p, (ls'.st.edge_entries p).entries = (ls.st.edge_entries p).entries ∧
              (ls'.st.edge_entries p).replacement_count
                = (ls.st.edge_entries p).replacement_count) ∧
        ls'.st.queue_input_hashmap = ls.st.queue_input_hashmap ∧
        ls'.st.queue_buf.length = ls.st.queue_buf.length ∧
        ls'.inserted = ls.inserted) := by
  constructor
  · intro ctx scr score existing new_entry hlen
    have H := find_eviction_fold_spec ctx existing new_entry scr score
      existing.length (le_refl _)
    have heq : find_eviction_candidate ctx scr score existing new_entry false
        = (if ¬ ((false : Bool) = true) ∧
              ((List.range existing.length).foldl (find_eviction_step ctx)
                (existing, new_entry, scr, score, (-1 : Int))).2.2.2.1 ≤ score
           then .ok (-1,
             ((List.range existing.length).foldl (find_eviction_step ctx)
               (existing, new_entry, scr, score, (-1 : Int))).1,
             ((List.range existing.length).foldl (find_eviction_step ctx)
               (existing, new_entry, scr, score, (-1 : Int))).2.1,
             ((List.range existing.length).foldl (find_eviction_step ctx)
               (existing, new_entry, scr, score, (-1 : Int))).2.2.1)
           else .ok (
             ((List.range existing.length).foldl (find_eviction_step ctx)
               (existing, new_entry, scr, score, (-1 : Int))).2.2.2.2,
             ((List.range existing.length).foldl (find_eviction_step ctx)
               (existing, new_entry, scr, score, (-1 : Int))).1,
             ((List.range existing.length).foldl (find_eviction_step ctx)
               (existing, new_entry, scr, score, (-1 : Int))).2.1,
             ((List.range existing.length).foldl (find_eviction_step ctx)
               (existing, new_entry, scr, score, (-1 : Int))).2.2.1)) := by
      unfold find_eviction_candidate
      rw [if_neg (by omega : ¬ 32 < existing.length)]
      rfl
    obtain ⟨-, -, hbr⟩ := H
    rcases hbr with ⟨hc, hb, hall⟩ | ⟨i, hi, hc, hb, hgt, hall⟩
    · rw [heq, if_pos ⟨by simp, le_of_eq hb⟩]
      exact Or.inl ⟨_, _, _, rfl, hall⟩
    · rw [heq, if_neg (fun hcon => absurd (hb ▸ hcon.2) (not_le.2 hgt)), hc]
      exact Or.inr ⟨i, _, _, _, hi, rfl, hgt, hall⟩
  · intro ctx trace k ls scr2 q' r hb hyp
    obtain ⟨hmatch, hsat, hdup, hscan, hsch, hens, hfec, hneg⟩ := hyp
    dsimp only at hmatch hsat hscan hsch hfec
    refine ⟨{ls with
        st := {ls.st with
          edge_entries := updF ls.st.edge_entries
            (8 * k + reps_of (count_class_lookup8 (trace.getD k 0 % 256)))
            {ls.st.edge_entries
                (8 * k + reps_of (count_class_lookup8 (trace.getD k 0 % 256))) with
              hit_count := (ls.st.edge_entries
                (8 * k + reps_of (count_class_lookup8 (trace.getD k 0 % 256)))).hit_count
                + 1},
          queue_buf := writeBackQ ls.st.queue_buf
            (ls.st.edge_entries
              (8 * k + reps_of (count_class_lookup8 (trace.getD k 0 % 256)))).entries
            r.2.1,
          prevLongest := r.2.2.2.1, maxCompressedLen := r.2.2.2.2},
        q_entry := r.2.2.1}, ?_, ?_, rfl, ?_, rfl⟩
    · unfold save_to_edge_entries_step
      rw [if_neg hb]
      dsimp only
      rw [hmatch]
      rw [if_neg (by simp : ¬ (false = true))]
      rw [if_neg hsat, hdup]
      rw [if_neg (by simp : ¬ (false = true))]
      simp only [hscan]
      rw [hsch]
      rw [if_neg (by simp : ¬ ¬ (true = true))]
      rw [hens, except_bind_ok]
      dsimp only
      rw [Prod.mk.eta, hfec, except_bind_ok]
      rw [if_pos hneg]
    · intro p
      by_cases hp : p = 8 * k + reps_of (count_class_lookup8 (trace.getD k 0 % 256))
      · subst hp
        simp only [updF]
        rw [if_pos trivial]
        exact ⟨rfl, rfl⟩
      · simp only [updF]
        rw [if_neg hp]
        exact ⟨rfl, rfl⟩
    · exact writeBackQ_length _ _ _

theorem find_eviction_candidate_spec_witness :
    (([] : List queue_entry).length ≤ 32 ∧
      ((∃ es' ne' scr', find_eviction_candidate exCtx (0, 0) 0 [] exQ false
            = .ok (-1, es', ne', scr') ∧
          ∀ i < ([] : List queue_entry).length,
            replacement_score exCtx [] exQ i ≤ 0) ∨
       (∃ i es' ne' scr', i < ([] : List queue_entry).length ∧
          find_eviction_candidate exCtx (0, 0) 0 [] exQ false
            = .ok ((i : Int), es', ne', scr') ∧
          (0 : ℚ) < replacement_score exCtx [] exQ i ∧
          ∀ j < ([] : List queue_entry).length,
            replacement_score exCtx [] exQ j ≤ replacement_score exCtx [] exQ i))) ∧
    (exTrace.getD 0 0 % 256 ≠ 0 ∧
      ∃ ls', save_to_edge_entries_step exCtx exTrace 0 exLsC4 = .ok ls' ∧
        (∀ p, (ls'.st.edge_entries p).entries = (exLsC4.st.edge_entries p).entries ∧
              (ls'.st.edge_entries p).replacement_count
                = (exLsC4.st.edge_entries p).replacement_count) ∧
        ls'.st.queue_input_hashmap = exLsC4.st.queue_input_hashmap ∧
        ls'.st.queue_buf.length = exLsC4.st.queue_buf.length ∧
        ls'.inserted = exLsC4.inserted) :=
  ⟨⟨by decide, find_eviction_candidate_spec.1 exCtx (0, 0) 0 [] exQ (by decide)⟩,
   ⟨by decide, find_eviction_candidate_spec.2 exCtx exTrace 0 exLsC4 (5, 21)
      (mkEntry [5] 0 (some 1)) (-1, [], mkEntry [5] 0 (some 1), (5, 21)) (by decide)
      (by exact ⟨rfl, by decide, rfl, rfl, rfl, rfl, rfl, rfl⟩)⟩⟩

theorem projE_cache (ctx : Ctx) (e : queue_entry) :
    projE (cache_compressed_len ctx e) = projE e := by
  unfold cache_compressed_len
  split <;> rfl

theorem calc_NCDm_cached (ctx : Ctx) (scr : Nat × Nat) (es : List queue_entry) :
    (calc_NCDm ctx scr es).2.1 = es.map (cache_compressed_len ctx) := rfl

theorem ncdm_union_acc (q : List queue_entry) (a : Nat) :
    q.foldl (fun acc e => if e.ncdm_favored then acc ||| e.trace_mini.getD 0 else acc) a
      = a ||| ncdm_favored_union q := by
  induction q generalizing a with
  | nil => simp [ncdm_favored_union]
  | cons e q ih =>
      simp only [ncdm_favored_union, List.foldl_cons]
      rw [ih, ih]
      by_cases he : e.ncdm_favored <;> simp [he, Nat.or_assoc]

theorem ncdm_union_proj (q : List queue_entry) :
    ncdm_favored_union q
      = (q.map projE).foldl (fun acc p => if p.1 then acc ||| p.2.getD 0 else acc) 0 := by
  rw [List.foldl_map]
  rfl

theorem ncdm_union_congr (q q' : List queue_entry) (h : q.map projE = q'.map projE) :
    ncdm_favored_union q = ncdm_favored_union q' := by
  rw [ncdm_union_proj, ncdm_union_proj, h]

theorem projE_getQ_of_map_eq (q q' : List queue_entry)
    (h : q.map projE = q'.map projE) (x : Nat) :
    projE (getQ q x) = projE (getQ q' x) := by
  have h1 : (q.map projE).getD x (projE default) = projE (q.getD x default) :=
    List.getD_map _ _ _
  have h2 : (q'.map projE).getD x (projE default) = projE (q'.getD x default) :=
    List.getD_map _ _ _
  rw [getQ, getQ, ← h1, ← h2, h]

theorem or_right_absorb (t U : Nat) : (t ||| U) ||| t = t ||| U := by
  apply Nat.eq_of_testBit_eq
  intro i
  simp only [Nat.testBit_or]
  cases Nat.testBit t i <;> cases Nat.testBit U i <;> rfl

theorem le_or_right (a b : Nat) : a ≤ a ||| b := by
  apply Nat.le_of_testBit
  intro i h
  simp [Nat.testBit_or, h]

theorem set_getD_self {α : Type} (q : List α) (i : Nat) (d : α) (h : i < q.length) :
    q.set i (q.getD i d) = q := by
  induction q generalizing i with
  | nil => simp at h
  | cons e q ih =>
      cases i with
      | zero => rfl
      | succ i =>
          simp only [List.getD_cons_succ, List.set_cons_succ]
          rw [ih i (by simpa using Nat.lt_of_succ_lt_succ h)]

theorem map_projE_foldl_set (l : List (Nat × queue_entry)) (q : List queue_entry)
    (h : ∀ p ∈ l, projE p.2 = projE (getQ q p.1)) :
    (l.foldl (fun acc p => acc.set p.1 p.2) q).map projE = q.map projE := by
  induction l generalizing q with
  | nil => rfl
  | cons p l ih =>
      rw [List.foldl_cons]
      have hset : (q.set p.1 p.2).map projE = q.map projE := by
        by_cases hlt : p.1 < q.length
        · rw [List.map_set]
          have h1 : projE p.2 = (q.map projE).getD p.1 (projE default) := by
            rw [List.getD_map _ _ _]
            exact h p (List.mem_cons_self _ _)
          rw [h1]
          exact set_getD_self _ _ _ (by simpa using hlt)
        · rw [List.set_eq_of_length_le (by omega)]
      have hmono := ih (q.set p.1 p.2) (fun p' hp' => by
        rw [h p' (List.mem_cons_of_mem _ hp')]
        exact (projE_getQ_of_map_eq _ _ hset p'.1).symm)
      rw [hmono, hset]

theorem mem_zip_map {α β : Type} (l : List α) (g : α → β) (p : α × β)
    (hp : p ∈ l.zip (l.map g)) : p.2 = g p.1 := by
  induction l with
  | nil => simp at hp
  | cons a l ih =>
      rw [List.map_cons, List.zip_cons_cons] at hp
      rcases List.mem_cons.1 hp with h | h
      · subst h; rfl
      · exact ih h

theorem map_projE_writeBackQ_cache (ctx : Ctx) (q : List queue_entry) (ids : List Nat) :
    (writeBackQ q ids ((ids.map (getQ q)).map (cache_compressed_len ctx))).map projE
      = q.map projE := by
  apply map_projE_foldl_set
  intro p hp
  rw [List.map_map] at hp
  have h2 := mem_zip_map ids (cache_compressed_len ctx ∘ getQ q) p hp
  rw [h2]
  exact projE_cache _ _

theorem trace_getQ_map_clear (q : List queue_entry) (x : Nat) :
    (getQ (q.map (fun e => {e with ncdm_favored := false})) x).trace_mini
      = (getQ q x).trace_mini := by
  induction q generalizing x with
  | nil => rfl
  | cons e q ih =>
      cases x with
      | zero => rfl
      | succ x => exact ih x

theorem trace_getQ_setQ_flag (q : List queue_entry) (c x : Nat) :
    (getQ (setQ q c (fun e => {e with ncdm_favored := true})) x).trace_mini
      = (getQ q x).trace_mini := by
  induction q generalizing c x with
  | nil => rfl
  | cons e q ih =>
      cases c with
      | zero =>
          cases x with
          | zero => rfl
          | succ x => rfl
      | succ c =>
          cases x with
          | zero => rfl
          | succ x => exact ih c x

theorem ncdm_union_clear (q : List queue_entry) :
    ncdm_favored_union (q.map (fun e => {e with ncdm_favored := false})) = 0 := by
  rw [ncdm_union_proj, List.map_map]
  induction q with
  | nil => rfl
  | cons e q ih => simpa using ih

theorem ncdm_union_setQ (q : List queue_entry) (c : Nat) (hc : c < q.length) :
    ncdm_favored_union (setQ q c (fun e => {e with ncdm_favored := true}))
      = ncdm_favored_union q ||| (getQ q c).trace_mini.getD 0 := by
  induction q generalizing c with
  | nil => simp at hc
  | cons e q ih =>
      cases c with
      | zero =>
          show ncdm_favored_union ({e with ncdm_favored := true} :: q)
            = ncdm_favored_union (e :: q) ||| e.trace_mini.getD 0
          simp only [ncdm_favored_union, List.foldl_cons]
          rw [ncdm_union_acc, ncdm_union_acc]
          cases he : e.ncdm_favored
          · simp [he]
            exact Nat.or_comm _ _
          · simp [he]
            exact (or_right_absorb _ _).symm
      | succ c =>
          show ncdm_favored_union (e :: setQ q c (fun e => {e with ncdm_favored := true}))
            = ncdm_favored_union (e :: q) ||| (getQ q c).trace_mini.getD 0
          simp only [ncdm_favored_union, List.foldl_cons]
          rw [ncdm_union_acc, ncdm_union_acc]
          rw [ih c (by simpa using Nat.lt_of_succ_lt_succ hc), Nat.or_assoc]

theorem pick_fold_inv (ctx : Ctx) (selected : List Nat) (sel_map : Nat)
    (queue : List queue_entry) (scr : Nat × Nat) (n : Nat) (hn : n ≤ queue.length) :
    ((List.range n).foldl (set_NCDm_pick_step ctx selected sel_map)
        ⟨2 ^ 32 - 1, 0, none, false, queue, scr⟩).queue.map projE = queue.map projE ∧
    (∀ c, ((List.range n).foldl (set_NCDm_pick_step ctx selected sel_map)
        ⟨2 ^ 32 - 1, 0, none, false, queue, scr⟩).best_candidate = some c →
      c < queue.length ∧
      trace_contains_new_coverage ((getQ queue c).trace_mini.getD 0) sel_map = true) := by
  induction n with
  | zero =>
      refine ⟨rfl, ?_⟩
      intro c h
      exact absurd h (by simp)
  | succ n ih =>
      obtain ⟨ihq, ihb⟩ := ih (by omega)
      rw [List.range_succ, List.foldl_append, List.foldl_cons, List.foldl_nil]
      generalize hps : (List.range n).foldl (set_NCDm_pick_step ctx selected sel_map)
        ⟨2 ^ 32 - 1, 0, none, false, queue, scr⟩ = ps at ihq ihb
      have htr : (getQ ps.queue n).trace_mini = (getQ queue n).trace_mini :=
        congrArg Prod.snd (projE_getQ_of_map_eq _ _ ihq n)
      unfold set_NCDm_pick_step
      by_cases hcov :
      trace_contains_new_coverage ((getQ ps.queue n).trace_mini.getD 0) sel_map = true
      · rw [if_neg (by simp [hcov])]
        by_cases hsel : selected.length = 0
        · rw [if_pos hsel]
          by_cases hshort : (getQ ps.queue n).compressed_len < ps.shortest
          · rw [if_pos hshort]
            refine ⟨ihq, ?_⟩
            intro c hc
            obtain rfl : n = c := by simpa using hc
            refine ⟨by omega, ?_⟩
            rw [← htr]
            exact hcov
          · rw [if_neg hshort]
            exact ⟨ihq, ihb⟩
        · rw [if_neg hsel]
          dsimp only
          rw [calc_NCDm_cached]
          by_cases hbest : ps.best_NCDm
              < (calc_NCDm ctx ps.scr ((selected ++ [n]).map (getQ ps.queue))).1
          · rw [if_pos hbest]
            refine ⟨?_, ?_⟩
            · rw [map_projE_writeBackQ_cache]
              exact ihq
            · intro c hc
              obtain rfl : n = c := by simpa using hc
              refine ⟨by omega, ?_⟩
              rw [← htr]
              exact hcov
          · rw [if_neg hbest]
            refine ⟨?_, ?_⟩
            · rw [map_projE_writeBackQ_cache]
              exact ihq
            · intro c hc
              exact ihb c (by simpa using hc)
      · rw [if_pos (by simp [hcov])]
        exact ⟨ihq, ihb⟩

theorem pick_fold_none (ctx : Ctx) (selected : List Nat) (sel_map : Nat)
    (queue : List queue_entry) (scr : Nat × Nat)
    (h : ∀ i < queue.length,
      trace_contains_new_coverage ((getQ queue i).trace_mini.getD 0) sel_map = false)
    (n : Nat) (hn : n ≤ queue.length) :
    (List.range n).foldl (set_NCDm_pick_step ctx selected sel_map)
      ⟨2 ^ 32 - 1, 0, none, false, queue, scr⟩
      = ⟨2 ^ 32 - 1, 0, none, false, queue, scr⟩ := by
  induction n with
  | zero => rfl
  | succ n ih =>
      rw [List.range_succ, List.foldl_append, List.foldl_cons, List.foldl_nil,
        ih (by omega)]
      unfold set_NCDm_pick_step
      rw [if_pos (by simp [h n (by omega)])]

theorem set_NCDm_loop_ok_union (ctx : Ctx) (ad : Nat) (fuel : Nat) :
    ∀ (sel_map : Nat) (selected : List Nat) (queue : List queue_entry)
      (scr : Nat × Nat) (q' : List queue_entry) (scr' : Nat × Nat) (sel' : List Nat),
      ncdm_favored_union queue = sel_map →
      set_NCDm_loop ctx ad fuel sel_map selected queue scr = .ok (q', scr', sel') →
      ncdm_favored_union q' = ad := by
  induction fuel with
  | zero =>
      intro sel_map selected queue scr q' scr' sel' hu h
      simp [set_NCDm_loop] at h
  | succ fuel ih =>
      intro sel_map selected queue scr q' scr' sel' hu h
      simp only [set_NCDm_loop] at h
      split at h
      · rename_i hcmp
        have had : ad = sel_map := by
          simpa [compare_trace_minis] using hcmp
        simp only [Except.ok.injEq, Prod.mk.injEq] at h
        obtain ⟨rfl, rfl, rfl⟩ := h
        rw [hu, had]
      · rename_i hcmp
        split at h
        · exact Except.noConfusion h
        · rename_i hfc
          split at h
          · exact Except.noConfusion h
          · rename_i c hbc
            obtain ⟨hq, hb⟩ := pick_fold_inv ctx selected sel_map queue scr
              queue.length (le_refl _)
            generalize hgen : (List.range queue.length).foldl
                (set_NCDm_pick_step ctx selected sel_map)
                ⟨2 ^ 32 - 1, 0, none, false, queue, scr⟩ = ps at hq hb hbc h
            obtain ⟨hclt, hcov⟩ := hb c hbc
            have hlen : ps.queue.length = queue.length := by
              have := congrArg List.length hq
              simpa using this
            have hu' : ncdm_favored_union
                (setQ ps.queue c (fun e => {e with ncdm_favored := true}))
                = sel_map ||| (getQ ps.queue c).trace_mini.getD 0 := by
              rw [ncdm_union_setQ _ _ (by omega), ncdm_union_congr _ _ hq, hu]
            exact ih _ _ _ _ _ _ _ hu' h

theorem set_NCDm_loop_err_incomplete (ctx : Ctx) (ad : Nat) (fuel : Nat) :
    ∀ (sel_map : Nat) (selected : List Nat) (queue : List queue_entry)
      (scr : Nat × Nat) (sm : Nat),
      set_NCDm_loop ctx ad fuel sel_map selected queue scr = .error (.noNewCoverage sm) →
      ad ≠ sm := by
  induction fuel with
  | zero =>
      intro sel_map selected queue scr sm h
      simp [set_NCDm_loop] at h
  | succ fuel ih =>
      intro sel_map selected queue scr sm h
      simp only [set_NCDm_loop] at h
      split at h
      · exact Except.noConfusion h
      · rename_i hcmp
        split at h
        · rename_i hfc
          simp only [Except.error.injEq, Err.noNewCoverage.injEq] at h
          subst h
          intro hadm
          exact hcmp (by simp [compare_trace_minis, hadm])
        · rename_i hfc
          split at h
          · simp at h
          · rename_i c hbc
            exact ih _ _ _ _ _ h

theorem set_NCDm_loop_fuel (ctx : Ctx) (ad m : Nat) (fuel : Nat) :
    ∀ (sel_map : Nat) (selected : List Nat) (queue : List queue_entry)
      (scr : Nat × Nat),
      sel_map < 2 ^ m →
      (∀ x, (getQ queue x).trace_mini.getD 0 < 2 ^ m) →
      2 ^ m - sel_map ≤ fuel →
      set_NCDm_loop ctx ad fuel sel_map selected queue scr ≠ .error .outOfFuel := by
  induction fuel with
  | zero =>
      intro sel_map selected queue scr hsm htr hf
      omega
  | succ fuel ih =>
      intro sel_map selected queue scr hsm htr hf h
      simp only [set_NCDm_loop] at h
      split at h
      · exact Except.noConfusion h
      · rename_i hcmp
        split at h
        · simp at h
        · rename_i hfc
          split at h
          · simp at h
          · rename_i c hbc
            obtain ⟨hq, hb⟩ := pick_fold_inv ctx selected sel_map queue scr
              queue.length (le_refl _)
            generalize hgen : (List.range queue.length).foldl
                (set_NCDm_pick_step ctx selected sel_map)
                ⟨2 ^ 32 - 1, 0, none, false, queue, scr⟩ = ps at hq hb hbc h
            obtain ⟨hclt, hcov⟩ := hb c hbc
            have htc : (getQ ps.queue c).trace_mini = (getQ queue c).trace_mini :=
              congrArg Prod.snd (projE_getQ_of_map_eq _ _ hq c)
            have htlt : (getQ ps.queue c).trace_mini.getD 0 < 2 ^ m := by
              rw [htc]
              exact htr c
            have hsm' : sel_map ||| (getQ ps.queue c).trace_mini.getD 0 < 2 ^ m :=
              Nat.or_lt_two_pow hsm htlt
            have hgrow : sel_map < sel_map ||| (getQ ps.queue c).trace_mini.getD 0 := by
              have hle := le_or_right sel_map ((getQ ps.queue c).trace_mini.getD 0)
              have hne : sel_map ||| (getQ ps.queue c).trace_mini.getD 0 ≠ sel_map := by
                have hcov' : ((getQ queue c).trace_mini.getD 0 ||| sel_map) ≠ sel_map := by
                  simpa [trace_contains_new_coverage] using hcov
                rw [← htc] at hcov'
                rw [Nat.or_comm]
                exact hcov'
              omega
            have htr' : ∀ x,
                (getQ (setQ ps.queue c (fun e => {e with ncdm_favored := true}))
                  x).trace_mini.getD 0 < 2 ^ m := by
              intro x
              rw [trace_getQ_setQ_flag]
              have := congrArg Prod.snd (projE_getQ_of_map_eq _ _ hq x)
              simp only [projE] at this
              rw [this]
              exact htr x
            exact ih _ _ _ _ hsm' htr' (by omega) h

theorem except_bind_err {α β : Type} (e : Err) (f : α → Except Err β) :
    ((Except.error e : Except Err α) >>= f) = Except.error e := rfl

/-- C5: when `set_NCDm_favored` returns, the union of the `trace_mini` coverage
vectors over the queue entries flagged `ncdm_favored` equals the minimized set of
discovered bits extracted from `virgin_bits`; the FATAL of the selection loop
(afl-fuzz-bitmap.c:318, the `noNewCoverage` error) fires only while the running cover
is still incomplete, and conversely fires as soon as a pass finds no queue entry whose
`trace_mini` adds a missing bit while the cover is incomplete; and with every coverage
vector bounded by `2 ^ map_size` the loop's fuel `2 ^ map_size` never runs out. -/
theorem set_NCDm_favored_cover :
    (∀ (ctx : Ctx) (scr : Nat × Nat) (virgin_bits : List Nat)
       (queue0 q' : List queue_entry) (scr' : Nat × Nat) (sel' : List Nat),
      set_NCDm_favored ctx scr virgin_bits queue0 = .ok (q', scr', sel') →
      ncdm_favored_union q' = all_discovered_bits virgin_bits) ∧
    (∀ (ctx : Ctx) (scr : Nat × Nat) (virgin_bits : List Nat)
       (queue0 : List queue_entry) (sm : Nat),
      set_NCDm_favored ctx scr virgin_bits queue0 = .error (.noNewCoverage sm) →
      sm ≠ all_discovered_bits virgin_bits) ∧
    (∀ (ctx : Ctx) (ad fuel sel_map : Nat) (selected : List Nat)
       (queue : List queue_entry) (scr : Nat × Nat),
      ad ≠ sel_map →
      (∀ i < queue.length,
        trace_contains_new_coverage ((getQ queue i).trace_mini.getD 0) sel_map = false) →
      set_NCDm_loop ctx ad (fuel + 1) sel_map selected queue scr
        = .error (.noNewCoverage sel_map)) ∧
    (∀ (ctx : Ctx) (scr : Nat × Nat) (virgin_bits : List Nat)
       (queue0 : List queue_entry),
      (∀ x, (getQ queue0 x).trace_mini.getD 0 < 2 ^ virgin_bits.length) →
      set_NCDm_favored ctx scr virgin_bits queue0 ≠ .error .outOfFuel) := by
  refine ⟨?_, ?_, ?_, ?_⟩
  · intro ctx scr virgin_bits queue0 q' scr' sel' h
    cases hloop : set_NCDm_loop ctx (all_discovered_bits virgin_bits)
        (2 ^ virgin_bits.length) 0 []
        (queue0.map (fun e => {e with ncdm_favored := false})) scr with
    | error e =>
        simp only [set_NCDm_favored, hloop, except_bind_err] at h
        exact Except.noConfusion h
    | ok t =>
        obtain ⟨q2, scr2, sel2⟩ := t
        have hu2 := set_NCDm_loop_ok_union ctx (all_discovered_bits virgin_bits)
          (2 ^ virgin_bits.length) 0 [] _ scr q2 scr2 sel2 (ncdm_union_clear queue0) hloop
        simp only [set_NCDm_favored, hloop, except_bind_ok, Except.ok.injEq,
          Prod.mk.injEq] at h
        obtain ⟨h1, h2, h3⟩ := h
        subst h1
        rw [calc_NCDm_cached]
        calc ncdm_favored_union _ = ncdm_favored_union q2 :=
              ncdm_union_congr _ _ (map_projE_writeBackQ_cache _ _ _)
      _ = all_discovered_bits virgin_bits := hu2
  · intro ctx scr virgin_bits queue0 sm h
    cases hloop : set_NCDm_loop ctx (all_discovered_bits virgin_bits)
        (2 ^ virgin_bits.length) 0 []
        (queue0.map (fun e => {e with ncdm_favored := false})) scr with
    | error e =>
        simp only [set_NCDm_favored, hloop, except_bind_err, Except.error.injEq] at h
        subst h
        exact Ne.symm (set_NCDm_loop_err_incomplete ctx _ _ _ _ _ _ _ hloop)
    | ok t =>
        obtain ⟨q2, scr2, sel2⟩ := t
        simp only [set_NCDm_favored, hloop, except_bind_ok] at h
        exact Except.noConfusion h
  · intro ctx ad fuel sel_map selected queue scr hne hall
    have hcmp : compare_trace_minis ad sel_map = true := by
      simp only [compare_trace_minis, bne_iff_ne, ne_eq]
      exact hne
    simp only [set_NCDm_loop]
    rw [if_neg (by simp [hcmp])]
    rw [pick_fold_none ctx selected sel_map queue scr hall queue.length (le_refl _)]
    rw [if_pos (by simp)]
  · intro ctx scr virgin_bits queue0 hbound h
    cases hloop : set_NCDm_loop ctx (all_discovered_bits virgin_bits)
        (2 ^ virgin_bits.length) 0 []
        (queue0.map (fun e => {e with ncdm_favored := false})) scr with
    | error e =>
        simp only [set_NCDm_favored, hloop, except_bind_err, Except.error.injEq] at h
        subst h
        refine set_NCDm_loop_fuel ctx (all_discovered_bits virgin_bits)
          virgin_bits.length (2 ^ virgin_bits.length) 0 []
          (queue0.map (fun e => {e with ncdm_favored := false})) scr
          (Nat.two_pow_pos _) ?_ (Nat.sub_le _ _) hloop
        intro x
        rw [trace_getQ_map_clear]
        exact hbound x
    | ok t =>
        obtain ⟨q2, scr2, sel2⟩ := t
        simp only [set_NCDm_favored, hloop, except_bind_ok] at h
        exact Except.noConfusion h

theorem set_NCDm_favored_cover_witness :
    (set_NCDm_favored exCtx (5, 7) exVirgin [exQC5]
        = .ok (exC5run.1, exC5run.2.1, exC5run.2.2) ∧
      ncdm_favored_union exC5run.1 = all_discovered_bits exVirgin) ∧
    (set_NCDm_favored exCtx (5, 7) exVirgin []
        = .error (.noNewCoverage 0) ∧ (0 : Nat) ≠ all_discovered_bits exVirgin) ∧
    ((1 : Nat) ≠ 0 ∧
      (∀ i < ([] : List queue_entry).length,
        trace_contains_new_coverage ((getQ ([] : List queue_entry) i).trace_mini.getD 0) 0
          = false) ∧
      set_NCDm_loop exCtx 1 (0 + 1) 0 [] [] (5, 7) = .error (.noNewCoverage 0)) ∧
    ((∀ x, (getQ [exQC5] x).trace_mini.getD 0 < 2 ^ exVirgin.length) ∧
      set_NCDm_favored exCtx (5, 7) exVirgin [exQC5] ≠ .error .outOfFuel) :=
  ⟨⟨rfl, set_NCDm_favored_cover.1 exCtx (5, 7) exVirgin [exQC5] exC5run.1 exC5run.2.1
      exC5run.2.2 rfl⟩,
   ⟨rfl, set_NCDm_favored_cover.2.1 exCtx (5, 7) exVirgin [] 0 rfl⟩,
   ⟨by decide, fun i hi => absurd hi (Nat.not_lt_zero i),
    set_NCDm_favored_cover.2.2.1 exCtx 1 0 0 [] [] (5, 7) (by decide)
      (fun i hi => absurd hi (Nat.not_lt_zero i))⟩,
   ⟨fun x => by
      cases x with
      | zero => decide
      | succ n =>
          rw [getQ, List.getD_eq_default _ _ (Nat.succ_le_succ (Nat.zero_le n))]
          decide,
    set_NCDm_favored_cover.2.2.2 exCtx (5, 7) exVirgin [exQC5]
      (fun x => by
        cases x with
        | zero => decide
        | succ n =>
            rw [getQ, List.getD_eq_default _ _ (Nat.succ_le_succ (Nat.zero_le n))]
            decide)⟩⟩

theorem bump_step_entries (trace : List Nat) (k : Nat) (f : Nat → edge_entry) (p : Nat) :
    ((bump_step trace k f) p).entries = (f p).entries := by
  unfold bump_step
  by_cases hb : trace.getD k 0 % 256 = 0
  · rw [if_pos hb]
  · rw [if_neg hb]
    dsimp only
    unfold updF
    by_cases hp : p = 8 * k + reps_of (count_class_lookup8 (trace.getD k 0 % 256))
    · rw [if_pos hp, hp]
    · rw [if_neg hp]

theorem bump_fold_entries (trace : List Nat) (n : Nat) (f : Nat → edge_entry) (p : Nat) :
    (((List.range n).foldl (fun f k => bump_step trace k f) f) p).entries
      = (f p).entries := by
  induction n with
  | zero => rfl
  | succ n ih =>
      rw [List.range_succ, List.foldl_append, List.foldl_cons, List.foldl_nil]
      rw [bump_step_entries]
      exact ih

theorem step_of_registered (ctx : Ctx) (trace : List Nat) (k : Nat)
    (ls : save_loop_state) (hdup : ls.is_duplicate = true)
    (hcond : trace.getD k 0 % 256 ≠ 0 →
      (ls.st.edge_entries
          (8 * k + reps_of (count_class_lookup8 (trace.getD k 0 % 256)))).entries ≠ []
        ∨ ls.st.ncd_entries_per_edge = 0) :
    save_to_edge_entries_step ctx trace k ls
      = .ok {ls with st :=
          {ls.st with edge_entries := bump_step trace k ls.st.edge_entries}} := by
  unfold save_to_edge_entries_step
  by_cases hb : trace.getD k 0 % 256 = 0
  · rw [if_pos hb]
    rw [show bump_step trace k ls.st.edge_entries = ls.st.edge_entries from by
      unfold bump_step; rw [if_pos hb]]
  · rw [if_neg hb]
    dsimp only
    rw [show bump_step trace k ls.st.edge_entries
        = updF ls.st.edge_entries
            (8 * k + reps_of (count_class_lookup8 (trace.getD k 0 % 256)))
            {ls.st.edge_entries
                (8 * k + reps_of (count_class_lookup8 (trace.getD k 0 % 256))) with
              hit_count := (ls.st.edge_entries
                (8 * k + reps_of (count_class_lookup8 (trace.getD k 0 % 256)))).hit_count
                + 1}
      from by unfold bump_step; rw [if_neg hb]]
    by_cases hany : ((ls.st.edge_entries
          (8 * k + reps_of (count_class_lookup8 (trace.getD k 0 % 256)))).entries.any
        (fun id => (getQ ls.st.queue_buf id).input_hash == ls.q_entry.input_hash)) = true
    · rw [if_pos hany]
    · rw [if_neg hany]
      by_cases hfill : (ls.st.edge_entries
            (8 * k + reps_of (count_class_lookup8 (trace.getD k 0 % 256)))).entries.length
          < ls.st.ncd_entries_per_edge
      · rw [if_pos hfill]
        have hne : (ls.st.edge_entries
            (8 * k + reps_of (count_class_lookup8 (trace.getD k 0 % 256)))).entries
            ≠ [] := by
          rcases hcond hb with h | h
          · exact h
          · rw [h] at hfill
            exact absurd hfill (by omega)
        have hlenF : ((ls.st.edge_entries
            (8 * k + reps_of (count_class_lookup8 (trace.getD k 0 % 256)))).entries.length
            = 0) = False :=
          eq_false (fun hcon => hne (List.length_eq_zero.1 hcon))
        simp only [hlenF, if_false]
        rw [if_pos ?_]
        refine ⟨?_, hdup⟩
        have hpos := List.length_pos.2 hne
        simpa [updF] using hpos
      · rw [if_neg hfill]
        rw [if_pos hdup]

theorem save_loop_bump (ctx : Ctx) (trace : List Nat) (st : afl_state)
    (q1 : queue_entry) (cal : CalOutcome) (n : Nat) (hn : n ≤ trace.length)
    (hcond : ∀ k, k < trace.length → trace.getD k 0 % 256 ≠ 0 →
      (st.edge_entries
          (8 * k + reps_of (count_class_lookup8 (trace.getD k 0 % 256)))).entries ≠ []
        ∨ st.ncd_entries_per_edge = 0) :
    (List.range n).foldlM (fun ls k => save_to_edge_entries_step ctx trace k ls)
      (⟨st, q1, true, false, cal, false⟩ : save_loop_state)
      = .ok ⟨bump_firstn trace n st, q1, true, false, cal, false⟩ := by
  induction n with
  | zero => rfl
  | succ n ih =>
      rw [List.range_succ, List.foldlM_append, ih (by omega), except_bind_ok]
      have hstep := step_of_registered ctx trace n
        (⟨bump_firstn trace n st, q1, true, false, cal, false⟩ : save_loop_state) rfl
        (by
          intro hb
          rcases hcond n (by omega) hb with h | h
          · left
            show (((List.range n).foldl (fun f k => bump_step trace k f)
                st.edge_entries) _).entries ≠ []
            rw [bump_fold_entries]
            exact h
          · right
            exact h)
      simp only [List.foldlM, hstep, except_bind_ok]
      unfold bump_firstn
      rw [List.range_succ, List.foldl_append, List.foldl_cons, List.foldl_nil]
      rfl

/-- C1 (amended): re-processing a classified trace whose input hash is already
registered in the input-hash index, when every touched cell is non-empty or the
per-edge capacity is zero (as is the case immediately after a first processing of
the same trace), changes nothing except the per-cell hit counts — no queue entry is
created, no cell's entries or scores change beyond `hit_count`, no bucket changes —
and the call reports not-inserted. The unamended claim is false: even an immediate
re-processing increments every touched cell's `hit_count` (see the counterexample). -/
theorem save_to_edge_entries_second_run (ctx : Ctx) (trace : List Nat)
    (st : afl_state) (q : queue_entry) (hec : st.edge_entry_count ≠ 0)
    (hreg : (hashmap_get st.queue_input_hashmap (ctx.hash64 (payload q))).isSome = true)
    (hcond : ∀ k, k < trace.length → trace.getD k 0 % 256 ≠ 0 →
      (st.edge_entries
          (8 * k + reps_of (count_class_lookup8 (trace.getD k 0 % 256)))).entries ≠ []
        ∨ st.ncd_entries_per_edge = 0) :
    save_to_edge_entries ctx trace st q = .ok (bump_hit_counts trace st, false) := by
  unfold save_to_edge_entries
  rw [if_neg hec]
  dsimp only
  rw [hreg]
  rw [save_loop_bump ctx trace st {q with input_hash := ctx.hash64 (payload q)}
    ctx.cal trace.length (le_refl _) hcond]
  rfl

theorem save_to_edge_entries_rerun_counterexample :
    save_to_edge_entries exCtx exTrace exState0 exQ = .ok (exS1, true) ∧
    save_to_edge_entries exCtx exTrace exS1 exQ = .ok (exS2, false) ∧
    (exS1.edge_entries 0).hit_count = 1 ∧
    (exS2.edge_entries 0).hit_count = 2 :=
  ⟨rfl, rfl, rfl, rfl⟩

theorem save_to_edge_entries_second_run_witness :
    (exS1.edge_entry_count ≠ 0 ∧
     (hashmap_get exS1.queue_input_hashmap (exCtx.hash64 (payload exQ))).isSome = true ∧
     (∀ k, k < exTrace.length → exTrace.getD k 0 % 256 ≠ 0 →
        (exS1.edge_entries
            (8 * k + reps_of (count_class_lookup8 (exTrace.getD k 0 % 256)))).entries ≠ []
          ∨ exS1.ncd_entries_per_edge = 0)) ∧
    save_to_edge_entries exCtx exTrace exS1 exQ = .ok (bump_hit_counts exTrace exS1, false) :=
  ⟨⟨by decide, by decide, fun k hk hb => by
      have h1 : k < 1 := by simpa [exTrace] using hk
      obtain rfl : k = 0 := by omega
      exact Or.inl (by decide)⟩,
   save_to_edge_entries_second_run exCtx exTrace exS1 exQ (by decide) (by decide)
     (fun k hk hb => by
        have h1 : k < 1 := by simpa [exTrace] using hk
        obtain rfl : k = 0 := by omega
        exact Or.inl (by decide))⟩

theorem getQ_setQ (q : List queue_entry) (i x : Nat) (f : queue_entry → queue_entry) :
    getQ (setQ q i f) x
      = if x = i ∧ x < q.length then f (getQ q x) else getQ q x := by
  induction q generalizing i x with
  | nil => simp [setQ, getQ]
  | cons e q ih =>
      cases i with
      | zero =>
          cases x with
          | zero => simp [setQ, getQ]
          | succ x =>
              simp only [setQ, getQ, List.set_cons_zero, List.getD_cons_succ,
                List.length_cons]
              rw [if_neg (by omega)]
      | succ i =>
          cases x with
          | zero =>
              simp only [setQ, getQ, List.set_cons_succ, List.getD_cons_zero,
                List.length_cons]
              rw [if_neg (by omega)]
          | succ x =>
              simp only [setQ, getQ, List.set_cons_succ, List.getD_cons_succ,
                List.length_cons]
              rw [show (q.set i (f (q.getD i default))).getD x default
                  = getQ (setQ q i f) x from rfl, ih i x]
              by_cases hx : x = i ∧ x < q.length
              · rw [if_pos hx, if_pos ⟨by omega, by omega⟩]
                rfl
              · rw [if_neg hx, if_neg (by omega)]
                rfl

theorem setQ_length (q : List queue_entry) (i : Nat) (f : queue_entry → queue_entry) :
    (setQ q i f).length = q.length := List.length_set _ _ _

theorem foldl_setQ_length (ids : List Nat) (g : Nat → queue_entry → queue_entry)
    (q : List queue_entry) :
    (ids.foldl (fun acc id => setQ acc id (g id)) q).length = q.length := by
  induction ids generalizing q with
  | nil => rfl
  | cons i ids ih => rw [List.foldl_cons, ih, setQ_length]

theorem getQ_foldl_setDup (ids : List Nat) (d : Nat) (q : List queue_entry) (x : Nat) :
    getQ (ids.foldl
        (fun acc id => setQ acc id (fun e => {e with duplicates := d})) q) x
      = if x ∈ ids ∧ x < q.length then {getQ q x with duplicates := d} else getQ q x := by
  induction ids generalizing q with
  | nil => simp
  | cons i ids ih =>
      rw [List.foldl_cons, ih, setQ_length, getQ_setQ]
      by_cases hm : x ∈ ids ∧ x < q.length
      · rw [if_pos hm]
        by_cases hx : x = i ∧ x < q.length
        · rw [if_pos hx, if_pos ⟨List.mem_cons.2 (Or.inr hm.1), hm.2⟩]
        · rw [if_neg hx, if_pos ⟨List.mem_cons.2 (Or.inr hm.1), hm.2⟩]
      · rw [if_neg hm]
        by_cases hx : x = i ∧ x < q.length
        · rw [if_pos hx, if_pos ⟨List.mem_cons.2 (Or.inl hx.1), hx.2⟩]
        · rw [if_neg hx, if_neg (fun hcon => by
            rcases List.mem_cons.1 hcon.1 with h | h
            · exact hx ⟨h, hcon.2⟩
            · exact hm ⟨h, hcon.2⟩)]

theorem hashmap_get_some (m : List queue_input_hash) (h : Nat) (b : queue_input_hash)
    (hg : hashmap_get m h = some b) : b ∈ m ∧ b.hash = h := by
  refine ⟨List.mem_of_find?_eq_some hg, ?_⟩
  have := List.find?_some hg
  simpa using this

theorem hashmap_get_none (m : List queue_input_hash) (h : Nat)
    (hg : hashmap_get m h = none) : ∀ b ∈ m, b.hash ≠ h := by
  intro b hb
  have := List.find?_eq_none.1 hg b hb
  simpa using this

theorem pairwise_key_unique (m : List queue_input_hash)
    (hp : m.Pairwise (fun a b => a.hash ≠ b.hash)) (b c : queue_input_hash)
    (hb : b ∈ m) (hc : c ∈ m) (hbc : b.hash = c.hash) : b = c := by
  induction m with
  | nil => simp at hb
  | cons a m ih =>
      rcases List.pairwise_cons.1 hp with ⟨ha, hp'⟩
      rcases List.mem_cons.1 hb with rfl | hb'
      · rcases List.mem_cons.1 hc with rfl | hc'
        · rfl
        · exact absurd hbc (ha c hc')
      · rcases List.mem_cons.1 hc with rfl | hc'
        · exact absurd hbc.symm (ha b hb')
        · exact ih hp' hb' hc'

theorem hashmap_get_of_mem (m : List queue_input_hash)
    (hp : m.Pairwise (fun a b => a.hash ≠ b.hash)) (b : queue_input_hash)
    (hb : b ∈ m) : hashmap_get m b.hash = some b := by
  induction m with
  | nil => simp at hb
  | cons a m ih =>
      rcases List.pairwise_cons.1 hp with ⟨ha, hp'⟩
      rcases List.mem_cons.1 hb with rfl | hb'
      · unfold hashmap_get
        rw [List.find?_cons_of_pos _ (by simp)]
      · unfold hashmap_get
        rw [List.find?_cons_of_neg _ (by simpa using ha b hb')]
        exact ih hp' hb'

theorem hashmap_set_replace (m : List queue_input_hash) (b' : queue_input_hash)
    (h : m.any (fun x => x.hash == b'.hash) = true) :
    hashmap_set m b' = m.map (fun x => if x.hash == b'.hash then b' else x) := by
  unfold hashmap_set
  rw [if_pos h]

theorem hashmap_set_append (m : List queue_input_hash) (b' : queue_input_hash)
    (h : ¬ m.any (fun x => x.hash == b'.hash) = true) :
    hashmap_set m b' = m ++ [b'] := by
  unfold hashmap_set
  rw [if_neg h]

theorem projH_cache (ctx : Ctx) (e : queue_entry) :
    projH (cache_compressed_len ctx e) = projH e := by
  unfold cache_compressed_len
  split <;> rfl

theorem projH_getQ_of_map_eq (q q' : List queue_entry)
    (h : q.map projH = q'.map projH) (x : Nat) :
    projH (getQ q x) = projH (getQ q' x) := by
  have h1 : (q.map projH).getD x (projH default) = projH (q.getD x default) :=
    List.getD_map _ _ _
  have h2 : (q'.map projH).getD x (projH default) = projH (q'.getD x default) :=
    List.getD_map _ _ _
  rw [getQ, getQ, ← h1, ← h2, h]

theorem map_projH_setQ (q : List queue_entry) (i : Nat) (f : queue_entry → queue_entry)
    (hf : projH (f (getQ q i)) = projH (getQ q i)) :
    (setQ q i f).map projH = q.map projH := by
  by_cases hlt : i < q.length
  · rw [setQ, List.map_set, hf]
    rw [show projH (getQ q i) = (q.map projH).getD i (projH default) from
      (List.getD_map _ _ _).symm]
    exact set_getD_self _ _ _ (by simpa using hlt)
  · rw [setQ, List.set_eq_of_length_le (by omega)]

theorem map_projH_foldl_set (l : List (Nat × queue_entry)) (q : List queue_entry)
    (h : ∀ p ∈ l, projH p.2 = projH (getQ q p.1)) :
    (l.foldl (fun acc p => acc.set p.1 p.2) q).map projH = q.map projH := by
  induction l generalizing q with
  | nil => rfl
  | cons p l ih =>
      rw [List.foldl_cons]
      have hset : (q.set p.1 p.2).map projH = q.map projH := by
        by_cases hlt : p.1 < q.length
        · rw [List.map_set]
          have h1 : projH p.2 = (q.map projH).getD p.1 (projH default) := by
            rw [List.getD_map _ _ _]
            exact h p (List.mem_cons_self _ _)
          rw [h1]
          exact set_getD_self _ _ _ (by simpa using hlt)
        · rw [List.set_eq_of_length_le (by omega)]
      have hmono := ih (q.set p.1 p.2) (fun p' hp' => by
        rw [h p' (List.mem_cons_of_mem _ hp')]
        exact (projH_getQ_of_map_eq _ _ hset p'.1).symm)
      rw [hmono, hset]

theorem map_projH_writeBackQ_cache (ctx : Ctx) (q : List queue_entry) (ids : List Nat) :
    (writeBackQ q ids ((ids.map (getQ q)).map (cache_compressed_len ctx))).map projH
      = q.map projH := by
  apply map_projH_foldl_set
  intro p hp
  rw [List.map_map] at hp
  have h2 := mem_zip_map ids (cache_compressed_len ctx ∘ getQ q) p hp
  rw [h2]
  exact projH_cache _ _

theorem invariant_congr (st st' : afl_state)
    (hm : st'.queue_input_hashmap = st.queue_input_hashmap)
    (hq : st'.queue_buf.map projH = st.queue_buf.map projH)
    (hinv : input_hash_index_invariant st) : input_hash_index_invariant st' := by
  have hlen : st'.queue_buf.length = st.queue_buf.length := by
    have := congrArg List.length hq
    simpa using this
  have hpt : ∀ x, projH (getQ st'.queue_buf x) = projH (getQ st.queue_buf x) :=
    projH_getQ_of_map_eq _ _ hq
  obtain ⟨h1, h2, h3, h4⟩ := hinv
  refine ⟨hm ▸ h1, ?_, hm ▸ h3, ?_⟩
  · intro b hb id hid
    obtain ⟨ha, hh, hd⟩ := h2 b (hm ▸ hb) id hid
    refine ⟨by omega, ?_, ?_⟩
    · calc (getQ st'.queue_buf id).input_hash
          = (getQ st.queue_buf id).input_hash := congrArg Prod.fst (hpt id)
        _ = b.hash := hh
    · calc (getQ st'.queue_buf id).duplicates
          = (getQ st.queue_buf id).duplicates := congrArg Prod.snd (hpt id)
        _ = b.inputs.length - 1 := hd
  · intro id hid
    obtain ⟨b, hb, hbid⟩ := h4 id (by omega)
    exact ⟨b, hm ▸ hb, hbid⟩

theorem hashmap_set_mem (m : List queue_input_hash) (b' b : queue_input_hash)
    (hb : b ∈ hashmap_set m b') : b = b' ∨ (b ∈ m ∧ b.hash ≠ b'.hash) := by
  unfold hashmap_set at hb
  split at hb
  · rename_i hany
    obtain ⟨c, hc, hcb⟩ := List.mem_map.1 hb
    by_cases hkey : c.hash = b'.hash
    · left
      rw [← hcb, if_pos (by simpa using hkey)]
    · right
      rw [← hcb, if_neg (by simpa using hkey)]
      exact ⟨hc, hkey⟩
  · rename_i hany
    rcases List.mem_append.1 hb with h | h
    · right
      refine ⟨h, ?_⟩
      have := List.any_eq_true.not.1 hany
      push_neg at this
      have h2 := this b h
      simpa using h2
    · left
      simpa using h

theorem hashmap_set_pairwise (m : List queue_input_hash) (b' : queue_input_hash)
    (hp : m.Pairwise (fun a b => a.hash ≠ b.hash)) :
    (hashmap_set m b').Pairwise (fun a b => a.hash ≠ b.hash) := by
  unfold hashmap_set
  split
  · rename_i hany
    refine List.Pairwise.map _ ?_ hp
    intro a b hab
    by_cases ha : a.hash = b'.hash <;> by_cases hb : b.hash = b'.hash
    · exact absurd (ha.trans hb.symm) hab
    · rw [if_pos (by simpa using ha), if_neg (by simpa using hb)]
      exact fun hcon => hb (ha ▸ hcon.symm)
    · rw [if_neg (by simpa using ha), if_pos (by simpa using hb)]
      exact fun hcon => ha (hb ▸ hcon)
    · rw [if_neg (by simpa using ha), if_neg (by simpa using hb)]
      exact hab
  · rename_i hany
    rw [List.pairwise_append]
    refine ⟨hp, List.pairwise_singleton _ _, ?_⟩
    intro a ha b hb
    obtain rfl : b = b' := by simpa using hb
    have := List.any_eq_true.not.1 hany
    push_neg at this
    have h2 := this a ha
    simpa using h2

theorem hashmap_set_keep (m : List queue_input_hash) (b' b : queue_input_hash)
    (hb : b ∈ m) (hne : b.hash ≠ b'.hash) : b ∈ hashmap_set m b' := by
  unfold hashmap_set
  split
  · refine List.mem_map.2 ⟨b, hb, ?_⟩
    rw [if_neg (by simpa using hne)]
  · exact List.mem_append_left _ hb

theorem hashmap_set_self (m : List queue_input_hash) (b' : queue_input_hash) :
    b' ∈ hashmap_set m b' := by
  unfold hashmap_set
  split
  · rename_i hany
    obtain ⟨c, hc, hcb⟩ := List.any_eq_true.1 hany
    refine List.mem_map.2 ⟨c, hc, ?_⟩
    rw [if_pos hcb]
  · exact List.mem_append_right _ (by simp)

theorem move_invariant_aux (st : afl_state) (evictee : Nat) (new : queue_entry)
    (st' : afl_state) (hinv : input_hash_index_invariant st)
    (hok : move_queue_entry_to_correct_input_hash st evictee new = .ok st') :
    input_hash_index_invariant st' ∧
    st'.queue_buf.length = st.queue_buf.length ∧
    (getQ st'.queue_buf evictee).input_hash = new.input_hash := by
  obtain ⟨hP, hC2, hND, hC4⟩ := hinv
  unfold move_queue_entry_to_correct_input_hash at hok
  dsimp only at hok
  cases hfound : hashmap_get st.queue_input_hashmap
      ((getQ st.queue_buf evictee).input_hash) with
  | none =>
      rw [hfound] at hok
      exact Except.noConfusion hok
  | some found =>
      rw [hfound] at hok
      dsimp only at hok
      obtain ⟨hfmem, hfhash⟩ := hashmap_get_some _ _ _ hfound
      rw [if_neg (by simp [hfhash])] at hok
      rw [if_neg (by simp)] at hok
      by_cases hmem : evictee ∈ found.inputs
      case neg =>
        rw [if_pos (by simpa using hmem)] at hok
        exact Except.noConfusion hok
      case pos =>
        rw [if_neg (by simpa using hmem)] at hok
        cases hf2 : hashmap_get
            (hashmap_set st.queue_input_hashmap
              {hash := found.hash, inputs := found.inputs.erase evictee})
            new.input_hash with
        | none =>
            rw [hf2] at hok
            injection hok with hX
            subst hX
            set nD := (if 2 ≤ found.inputs.length then found.inputs.length - 2 else 0 :
              Nat) with hnD
            set q1 := found.inputs.foldl
              (fun acc id => setQ acc id (fun e => {e with duplicates := nD}))
              st.queue_buf with hq1
            set q2 := setQ q1 evictee
              (fun e => {e with input_hash := new.input_hash}) with hq2
            set q3 := setQ q2 evictee (fun e => {e with duplicates := 0}) with hq3
            set fd1 : queue_input_hash :=
              {hash := found.hash, inputs := found.inputs.erase evictee} with hfd1
            set m1 := hashmap_set st.queue_input_hashmap fd1 with hm1
            set nb : queue_input_hash :=
              {hash := new.input_hash, inputs := [evictee]} with hnb
            set m2 := hashmap_set m1 nb with hm2
            have hndF : found.inputs.Nodup := hND found hfmem
            obtain ⟨hevlt, hevhash, hevdup⟩ := hC2 found hfmem evictee hmem
            have hnev : evictee ∉ found.inputs.erase evictee := hndF.not_mem_erase
            have herlen : (found.inputs.erase evictee).length
                = found.inputs.length - 1 := List.length_erase_of_mem hmem
            have hl1 : q1.length = st.queue_buf.length := by
              rw [hq1]; exact foldl_setQ_length _ _ _
            have hg1 : ∀ x, getQ q1 x = if x ∈ found.inputs ∧ x < st.queue_buf.length
                then {getQ st.queue_buf x with duplicates := nD}
                else getQ st.queue_buf x := by
              intro x; rw [hq1]; exact getQ_foldl_setDup _ _ _ _
            have hl2 : q2.length = st.queue_buf.length := by
              rw [hq2, setQ_length, hl1]
            have hg2 : ∀ x, getQ q2 x = if x = evictee ∧ x < st.queue_buf.length
                then {getQ q1 x with input_hash := new.input_hash} else getQ q1 x := by
              intro x; rw [hq2, getQ_setQ, hl1]
            have hl3 : q3.length = st.queue_buf.length := by
              rw [hq3, setQ_length, hl2]
            have hg3 : ∀ x, getQ q3 x = if x = evictee ∧ x < st.queue_buf.length
                then {getQ q2 x with duplicates := 0} else getQ q2 x := by
              intro x; rw [hq3, getQ_setQ, hl2]
            have hm1P : m1.Pairwise (fun a b => a.hash ≠ b.hash) := by
              rw [hm1]; exact hashmap_set_pairwise _ _ hP
            have hm1none : ∀ b ∈ m1, b.hash ≠ new.input_hash :=
              hashmap_get_none _ _ hf2
            have hfd1mem : fd1 ∈ m1 := by rw [hm1]; exact hashmap_set_self _ _
            have hmem2 : ∀ b ∈ m2, b = nb ∨ b = fd1 ∨
                (b ∈ st.queue_input_hashmap ∧ b.hash ≠ found.hash ∧
                  b.hash ≠ new.input_hash) := by
              intro b hb
              rcases hashmap_set_mem _ _ _ (hm2 ▸ hb) with rfl | ⟨hbm1, hbne⟩
              · exact Or.inl rfl
              · rcases hashmap_set_mem _ _ _ (hm1 ▸ hbm1) with rfl | ⟨hbm, hbneF⟩
                · exact Or.inr (Or.inl rfl)
                · refine Or.inr (Or.inr ⟨hbm, ?_, ?_⟩)
                  · intro hcon; exact hbneF (by rw [hfd1]; exact hcon)
                  · intro hcon; exact hbne (by rw [hnb]; exact hcon)
            have hMold : ∀ b ∈ st.queue_input_hashmap, b.hash ≠ found.hash →
                ∀ id ∈ b.inputs, id ∉ found.inputs ∧ id ≠ evictee ∧
                  id < st.queue_buf.length ∧
                  (getQ st.queue_buf id).input_hash = b.hash ∧
                  (getQ st.queue_buf id).duplicates = b.inputs.length - 1 := by
              intro b hb hbne id hid
              obtain ⟨hidlt, hidh, hidd⟩ := hC2 b hb id hid
              refine ⟨?_, ?_, hidlt, hidh, hidd⟩
              · intro hcon
                obtain ⟨_, hidh2, _⟩ := hC2 found hfmem id hcon
                exact hbne (hidh.symm.trans hidh2)
              · intro hcon
                subst hcon
                exact hbne (hidh.symm.trans hevhash)
            refine ⟨⟨?_, ?_, ?_, ?_⟩, ?_, ?_⟩
            · show m2.Pairwise _
              rw [hm2]
              exact hashmap_set_pairwise _ _ hm1P
            · intro b hb id hid
              rcases hmem2 b hb with rfl | rfl | ⟨hbm, hbneF, hbneN⟩
              · have hid' : id = evictee := by
                  rw [hnb] at hid; simpa using hid
                subst hid'
                refine ⟨?_, ?_, ?_⟩
                · show id < q3.length
                  rw [hl3]; exact hevlt
                · show (getQ q3 id).input_hash = _
                  rw [hg3 id, if_pos ⟨rfl, hevlt⟩, hg2 id, if_pos ⟨rfl, hevlt⟩, hnb]
                · show (getQ q3 id).duplicates = _
                  rw [hg3 id, if_pos ⟨rfl, hevlt⟩, hnb]
                  rfl
              · have hidE : id ∈ found.inputs.erase evictee := by
                  rw [hfd1] at hid; exact hid
                have hidF : id ∈ found.inputs := List.mem_of_mem_erase hidE
                have hidne : id ≠ evictee := by
                  intro hcon; subst hcon; exact hnev hidE
                obtain ⟨hidlt, hidh, hidd⟩ := hC2 found hfmem id hidF
                have h2le : 2 ≤ found.inputs.length := by
                  have hpos : 0 < (found.inputs.erase evictee).length :=
                    List.length_pos.2 (fun hcon => by rw [hcon] at hidE; simp at hidE)
                  omega
                refine ⟨?_, ?_, ?_⟩
                · show id < q3.length
                  rw [hl3]; exact hidlt
                · show (getQ q3 id).input_hash = _
                  rw [hg3 id, if_neg (fun hcon => hidne hcon.1), hg2 id,
                    if_neg (fun hcon => hidne hcon.1), hg1 id, if_pos ⟨hidF, hidlt⟩]
                  exact hidh
                · show (getQ q3 id).duplicates = _
                  rw [hg3 id, if_neg (fun hcon => hidne hcon.1), hg2 id,
                    if_neg (fun hcon => hidne hcon.1), hg1 id, if_pos ⟨hidF, hidlt⟩]
                  show nD = fd1.inputs.length - 1
                  rw [hnD, hfd1, if_pos h2le]
                  show found.inputs.length - 2 = (found.inputs.erase evictee).length - 1
                  rw [herlen]
                  omega
              · obtain ⟨hidnF, hidne, hidlt, hidh, hidd⟩ := hMold b hbm hbneF id hid
                refine ⟨?_, ?_, ?_⟩
                · show id < q3.length
                  rw [hl3]; exact hidlt
                · show (getQ q3 id).input_hash = _
                  rw [hg3 id, if_neg (fun hcon => hidne hcon.1), hg2 id,
                    if_neg (fun hcon => hidne hcon.1), hg1 id,
                    if_neg (fun hcon => hidnF hcon.1)]
                  exact hidh
                · show (getQ q3 id).duplicates = _
                  rw [hg3 id, if_neg (fun hcon => hidne hcon.1), hg2 id,
                    if_neg (fun hcon => hidne hcon.1), hg1 id,
                    if_neg (fun hcon => hidnF hcon.1)]
                  exact hidd
            · intro b hb
              rcases hmem2 b hb with rfl | rfl | ⟨hbm, _, _⟩
              · rw [hnb]; simp
              · rw [hfd1]; exact hndF.erase _
              · exact hND b hbm
            · intro id hid
              have hid2 : id < q3.length := hid
              rw [hl3] at hid2
              by_cases hev : id = evictee
              · subst hev
                refine ⟨nb, ?_, ?_⟩
                · show nb ∈ m2
                  rw [hm2]; exact hashmap_set_self _ _
                · rw [hnb]; simp
              · obtain ⟨b, hbm, hbid⟩ := hC4 id hid2
                by_cases hbf : b = found
                · subst hbf
                  refine ⟨fd1, ?_, ?_⟩
                  · show fd1 ∈ m2
                    rw [hm2]
                    exact hashmap_set_keep _ _ _ hfd1mem
                      (fun hcon => hm1none fd1 hfd1mem hcon)
                  · rw [hfd1]
                    exact (List.mem_erase_of_ne hev).2 hbid
                · have hbneF : b.hash = found.hash → False := fun hcon =>
                    hbf (pairwise_key_unique _ hP b found hbm hfmem hcon)
                  have hbm1 : b ∈ m1 := by
                    rw [hm1]
                    exact hashmap_set_keep _ _ _ hbm
                      (fun hcon => hbneF (by rw [hfd1] at hcon; exact hcon))
                  refine ⟨b, ?_, hbid⟩
                  show b ∈ m2
                  rw [hm2]
                  exact hashmap_set_keep _ _ _ hbm1
                    (fun hcon => hm1none b hbm1 hcon)
            · show q3.length = st.queue_buf.length
              exact hl3
            · show (getQ q3 evictee).input_hash = new.input_hash
              rw [hg3 evictee, if_pos ⟨rfl, hevlt⟩, hg2 evictee, if_pos ⟨rfl, hevlt⟩]
        | some f2 =>
            rw [hf2] at hok
            injection hok with hX
            subst hX
            set nD := (if 2 ≤ found.inputs.length then found.inputs.length - 2 else 0 :
              Nat) with hnD
            set q1 := found.inputs.foldl
              (fun acc id => setQ acc id (fun e => {e with duplicates := nD}))
              st.queue_buf with hq1
            set q2 := setQ q1 evictee
              (fun e => {e with input_hash := new.input_hash}) with hq2
            set fd1 : queue_input_hash :=
              {hash := found.hash, inputs := found.inputs.erase evictee} with hfd1
            set m1 := hashmap_set st.queue_input_hashmap fd1 with hm1
            set f2b : queue_input_hash :=
              {hash := f2.hash, inputs := f2.inputs ++ [evictee]} with hf2b
            set dups := (f2.inputs ++ [evictee]).length - 1 with hdups
            set q3 := (f2.inputs ++ [evictee]).foldl
              (fun acc id => setQ acc id (fun e => {e with duplicates := dups}))
              q2 with hq3
            set m2 := hashmap_set m1 f2b with hm2
            have hndF : found.inputs.Nodup := hND found hfmem
            obtain ⟨hevlt, hevhash, hevdup⟩ := hC2 found hfmem evictee hmem
            have hnev : evictee ∉ found.inputs.erase evictee := hndF.not_mem_erase
            have herlen : (found.inputs.erase evictee).length
                = found.inputs.length - 1 := List.length_erase_of_mem hmem
            obtain ⟨hf2mem, hf2h⟩ := hashmap_get_some _ _ _ hf2
            have hl1 : q1.length = st.queue_buf.length := by
              rw [hq1]; exact foldl_setQ_length _ _ _
            have hg1 : ∀ x, getQ q1 x = if x ∈ found.inputs ∧ x < st.queue_buf.length
                then {getQ st.queue_buf x with duplicates := nD}
                else getQ st.queue_buf x := by
              intro x; rw [hq1]; exact getQ_foldl_setDup _ _ _ _
            have hg1h : ∀ x, (getQ q1 x).input_hash
                = (getQ st.queue_buf x).input_hash := by
              intro x; rw [hg1 x]; split <;> rfl
            have hl2 : q2.length = st.queue_buf.length := by
              rw [hq2, setQ_length, hl1]
            have hg2 : ∀ x, getQ q2 x = if x = evictee ∧ x < st.queue_buf.length
                then {getQ q1 x with input_hash := new.input_hash} else getQ q1 x := by
              intro x; rw [hq2, getQ_setQ, hl1]
            have hl3 : q3.length = st.queue_buf.length := by
              rw [hq3, foldl_setQ_length, hl2]
            have hg3 : ∀ x, getQ q3 x =
                if x ∈ f2.inputs ++ [evictee] ∧ x < st.queue_buf.length
                then {getQ q2 x with duplicates := dups} else getQ q2 x := by
              intro x
              rw [hq3]
              rw [show ((f2.inputs ++ [evictee]).foldl
                  (fun acc id => setQ acc id (fun e => {e with duplicates := dups}))
                  q2) = _ from rfl, getQ_foldl_setDup, hl2]
            have hm1P : m1.Pairwise (fun a b => a.hash ≠ b.hash) := by
              rw [hm1]; exact hashmap_set_pairwise _ _ hP
            have hfd1mem : fd1 ∈ m1 := by rw [hm1]; exact hashmap_set_self _ _
            have hf2split : f2 = fd1 ∨
                (f2 ∈ st.queue_input_hashmap ∧ f2.hash ≠ fd1.hash) :=
              hashmap_set_mem _ _ _ (hm1 ▸ hf2mem)
            have hf2facts : (∀ id ∈ f2.inputs, id ≠ evictee ∧
                id < st.queue_buf.length ∧
                (getQ st.queue_buf id).input_hash = f2.hash) ∧
                f2.inputs.Nodup ∧ evictee ∉ f2.inputs := by
              rcases hf2split with rfl | ⟨hf2m, hf2ne⟩
              · refine ⟨?_, hndF.erase _, hnev⟩
                intro id hid
                have hidF : id ∈ found.inputs := List.mem_of_mem_erase hid
                obtain ⟨hidlt, hidh, _⟩ := hC2 found hfmem id hidF
                refine ⟨fun hcon => hnev ?_, hidlt, hidh⟩
                rw [hfd1] at hid
                exact hcon ▸ hid
              · refine ⟨?_, hND f2 hf2m, ?_⟩
                · intro id hid
                  obtain ⟨hidlt, hidh, _⟩ := hC2 f2 hf2m id hid
                  refine ⟨?_, hidlt, hidh⟩
                  intro hcon
                  subst hcon
                  exact hf2ne (hidh.symm.trans hevhash)
                · intro hcon
                  obtain ⟨_, hevh2, _⟩ := hC2 f2 hf2m evictee hcon
                  exact hf2ne (hevh2.symm.trans hevhash)
            obtain ⟨hF2mem, hF2nd, hF2nev⟩ := hf2facts
            have hF2nF : ∀ id ∈ f2.inputs, f2.hash ≠ found.hash →
                id ∉ found.inputs := by
              intro id hid hne hcon
              obtain ⟨_, _, hidh⟩ := hF2mem id hid
              obtain ⟨_, hidh2, _⟩ := hC2 found hfmem id hcon
              exact hne (hidh.symm.trans hidh2)
            have hmem2 : ∀ b ∈ m2, b = f2b ∨ (b = fd1 ∧ fd1.hash ≠ f2.hash) ∨
                (b ∈ st.queue_input_hashmap ∧ b.hash ≠ found.hash ∧
                  b.hash ≠ f2.hash) := by
              intro b hb
              rcases hashmap_set_mem _ _ _ (hm2 ▸ hb) with rfl | ⟨hbm1, hbne⟩
              · exact Or.inl rfl
              · rcases hashmap_set_mem _ _ _ (hm1 ▸ hbm1) with rfl | ⟨hbm, hbneF⟩
                · exact Or.inr (Or.inl ⟨rfl, fun hcon => hbne hcon⟩)
                · refine Or.inr (Or.inr ⟨hbm, ?_, fun hcon => hbne hcon⟩)
                  intro hcon; exact hbneF (by rw [hfd1]; exact hcon)
            have hMold : ∀ b ∈ st.queue_input_hashmap, b.hash ≠ found.hash →
                ∀ id ∈ b.inputs, id ∉ found.inputs ∧ id ≠ evictee ∧
                  id < st.queue_buf.length ∧
                  (getQ st.queue_buf id).input_hash = b.hash ∧
                  (getQ st.queue_buf id).duplicates = b.inputs.length - 1 := by
              intro b hb hbne id hid
              obtain ⟨hidlt, hidh, hidd⟩ := hC2 b hb id hid
              refine ⟨?_, ?_, hidlt, hidh, hidd⟩
              · intro hcon
                obtain ⟨_, hidh2, _⟩ := hC2 found hfmem id hcon
                exact hbne (hidh.symm.trans hidh2)
              · intro hcon
                subst hcon
                exact hbne (hidh.symm.trans hevhash)
            refine ⟨⟨?_, ?_, ?_, ?_⟩, ?_, ?_⟩
            · show m2.Pairwise _
              rw [hm2]
              exact hashmap_set_pairwise _ _ hm1P
            · intro b hb id hid
              rcases hmem2 b hb with rfl | ⟨rfl, hfneq⟩ | ⟨hbm, hbneF, hbneN⟩
              · have hidm : id ∈ f2.inputs ++ [evictee] := by
                  rw [hf2b] at hid; exact hid
                have hidlt : id < st.queue_buf.length := by
                  rcases List.mem_append.1 hidm with h | h
                  · exact (hF2mem id h).2.1
                  · obtain rfl : id = evictee := by simpa using h
                    exact hevlt
                refine ⟨?_, ?_, ?_⟩
                · show id < q3.length
                  rw [hl3]; exact hidlt
                · show (getQ q3 id).input_hash = _
                  rw [hg3 id, if_pos ⟨hidm, hidlt⟩]
                  show (getQ q2 id).input_hash = f2b.hash
                  rcases List.mem_append.1 hidm with h | h
                  · obtain ⟨hidne, _, hidh⟩ := hF2mem id h
                    rw [hg2 id, if_neg (fun hcon => hidne hcon.1), hg1h id, hf2b]
                    exact hidh
                  · obtain rfl : id = evictee := by simpa using h
                    rw [hg2 id, if_pos ⟨rfl, hevlt⟩, hf2b]
                    exact hf2h.symm
                · show (getQ q3 id).duplicates = _
                  rw [hg3 id, if_pos ⟨hidm, hidlt⟩]
              · have hidE : id ∈ found.inputs.erase evictee := by
                  rw [hfd1] at hid; exact hid
                have hidF : id ∈ found.inputs := List.mem_of_mem_erase hidE
                have hidne : id ≠ evictee := by
                  intro hcon; subst hcon; exact hnev hidE
                obtain ⟨hidlt, hidh, hidd⟩ := hC2 found hfmem id hidF
                have hidnf2 : id ∉ f2.inputs := by
                  intro hcon
                  obtain ⟨_, _, hidh2⟩ := hF2mem id hcon
                  exact hfneq (by rw [hfd1]; exact (hidh2.symm.trans hidh).symm)
                have h2le : 2 ≤ found.inputs.length := by
                  have hpos : 0 < (found.inputs.erase evictee).length :=
                    List.length_pos.2 (fun hcon => by rw [hcon] at hidE; simp at hidE)
                  omega
                refine ⟨?_, ?_, ?_⟩
                · show id < q3.length
                  rw [hl3]; exact hidlt
                · show (getQ q3 id).input_hash = _
                  rw [hg3 id, if_neg (fun hcon => by
                      rcases List.mem_append.1 hcon.1 with h | h
                      · exact hidnf2 h
                      · exact hidne (by simpa using h)),
                    hg2 id, if_neg (fun hcon => hidne hcon.1), hg1 id,
                    if_pos ⟨hidF, hidlt⟩]
                  exact hidh
                · show (getQ q3 id).duplicates = _
                  rw [hg3 id, if_neg (fun hcon => by
                      rcases List.mem_append.1 hcon.1 with h | h
                      · exact hidnf2 h
                      · exact hidne (by simpa using h)),
                    hg2 id, if_neg (fun hcon => hidne hcon.1), hg1 id,
                    if_pos ⟨hidF, hidlt⟩]
                  show nD = fd1.inputs.length - 1
                  rw [hnD, hfd1, if_pos h2le]
                  show found.inputs.length - 2 = (found.inputs.erase evictee).length - 1
                  rw [herlen]
                  omega
              · obtain ⟨hidnF, hidne, hidlt, hidh, hidd⟩ := hMold b hbm hbneF id hid
                have hidnf2 : id ∉ f2.inputs := by
                  intro hcon
                  obtain ⟨_, _, hidh2⟩ := hF2mem id hcon
                  exact hbneN (hidh.symm.trans hidh2)
                refine ⟨?_, ?_, ?_⟩
                · show id < q3.length
                  rw [hl3]; exact hidlt
                · show (getQ q3 id).input_hash = _
                  rw [hg3 id, if_neg (fun hcon => by
                      rcases List.mem_append.1 hcon.1 with h | h
                      · exact hidnf2 h
                      · exact hidne (by simpa using h)),
                    hg2 id, if_neg (fun hcon => hidne hcon.1), hg1 id,
                    if_neg (fun hcon => hidnF hcon.1)]
                  exact hidh
                · show (getQ q3 id).duplicates = _
                  rw [hg3 id, if_neg (fun hcon => by
                      rcases List.mem_append.1 hcon.1 with h | h
                      · exact hidnf2 h
                      · exact hidne (by simpa using h)),
                    hg2 id, if_neg (fun hcon => hidne hcon.1), hg1 id,
                    if_neg (fun hcon => hidnF hcon.1)]
                  exact hidd
            · intro b hb
              rcases hmem2 b hb with rfl | ⟨rfl, _⟩ | ⟨hbm, _, _⟩
              · rw [hf2b]
                show (f2.inputs ++ [evictee]).Nodup
                rw [List.nodup_append]
                exact ⟨hF2nd, by simp, by simp [hF2nev]⟩
              · rw [hfd1]; exact hndF.erase _
              · exact hND b hbm
            · intro id hid
              have hid2 : id < q3.length := hid
              rw [hl3] at hid2
              by_cases hev : id = evictee
              · subst hev
                refine ⟨f2b, ?_, ?_⟩
                · show f2b ∈ m2
                  rw [hm2]; exact hashmap_set_self _ _
                · rw [hf2b]; simp
              · obtain ⟨b, hbm, hbid⟩ := hC4 id hid2
                by_cases hbf : b = found
                · rw [hbf] at hbid
                  have hidE : id ∈ found.inputs.erase evictee :=
                    (List.mem_erase_of_ne hev).2 hbid
                  by_cases hsame : fd1.hash = f2.hash
                  · have hfd1f2 : f2 = fd1 :=
                      pairwise_key_unique _ hm1P f2 fd1 hf2mem hfd1mem hsame.symm
                    refine ⟨f2b, ?_, ?_⟩
                    · show f2b ∈ m2
                      rw [hm2]; exact hashmap_set_self _ _
                    · rw [hf2b]
                      refine List.mem_append_left _ ?_
                      rw [hfd1f2, hfd1]
                      exact hidE
                  · refine ⟨fd1, ?_, ?_⟩
                    · show fd1 ∈ m2
                      rw [hm2]
                      exact hashmap_set_keep _ _ _ hfd1mem
                        (fun hcon => hsame (by rw [hf2b] at hcon; exact hcon))
                    · rw [hfd1]; exact hidE
                · have hbneF : b.hash = found.hash → False := fun hcon =>
                    hbf (pairwise_key_unique _ hP b found hbm hfmem hcon)
                  have hbm1 : b ∈ m1 := by
                    rw [hm1]
                    exact hashmap_set_keep _ _ _ hbm
                      (fun hcon => hbneF (by rw [hfd1] at hcon; exact hcon))
                  by_cases hsame : b.hash = f2.hash
                  · have hbf2 : b = f2 :=
                      pairwise_key_unique _ hm1P b f2 hbm1 hf2mem hsame
                    refine ⟨f2b, ?_, ?_⟩
                    · show f2b ∈ m2
                      rw [hm2]; exact hashmap_set_self _ _
                    · rw [hf2b]
                      exact List.mem_append_left _ (hbf2 ▸ hbid)
                  · refine ⟨b, ?_, hbid⟩
                    show b ∈ m2
                    rw [hm2]
                    exact hashmap_set_keep _ _ _ hbm1
                      (fun hcon => hsame (by rw [hf2b] at hcon; exact hcon))
            · show q3.length = st.queue_buf.length
              exact hl3
            · show (getQ q3 evictee).input_hash = new.input_hash
              rw [hg3 evictee, if_pos ⟨List.mem_append_right _ (by simp), hevlt⟩,
                hg2 evictee, if_pos ⟨rfl, hevlt⟩]



theorem find_eviction_step_fst_projH (ctx : Ctx)
    (acc : List queue_entry × queue_entry × (Nat × Nat) × ℚ × Int) (i : Nat) :
    ((find_eviction_step ctx acc i).1).map projH = (acc.1).map projH := by
  obtain ⟨es, ne, s, best, cand⟩ := acc
  unfold find_eviction_step
  dsimp only
  split
  · exact map_key_mapIdx projH _ es (by
      intro j a
      split
      · rfl
      · exact projH_cache _ _)
  · exact map_key_mapIdx projH _ es (by
      intro j a
      split
      · rfl
      · exact projH_cache _ _)

theorem find_eviction_fold_fst_projH (ctx : Ctx) (l : List Nat)
    (acc : List queue_entry × queue_entry × (Nat × Nat) × ℚ × Int) :
    ((l.foldl (find_eviction_step ctx) acc).1).map projH = (acc.1).map projH := by
  induction l generalizing acc with
  | nil => rfl
  | cons i l ih => rw [List.foldl_cons, ih, find_eviction_step_fst_projH]

theorem fec_snd_projH (ctx : Ctx) (scr : Nat × Nat) (ncd : ℚ)
    (existing : List queue_entry) (ne : queue_entry) (forced : Bool)
    (r : Int × List queue_entry × queue_entry × (Nat × Nat))
    (h : find_eviction_candidate ctx scr ncd existing ne forced = .ok r) :
    r.2.1.map projH = existing.map projH := by
  unfold find_eviction_candidate at h
  split at h
  · exact Except.noConfusion h
  · dsimp only at h
    generalize hp : (List.range existing.length).foldl (find_eviction_step ctx)
      (existing, ne, scr, (if forced = true then (0 : ℚ) else ncd), (-1 : Int)) = p at h
    have h3 := find_eviction_fold_fst_projH ctx (List.range existing.length)
      (existing, ne, scr, (if forced = true then (0 : ℚ) else ncd), (-1 : Int))
    rw [hp] at h3
    obtain ⟨es, ne2, scrF, bd, cand⟩ := p
    split at h
    · injection h with h2
      subst h2
      exact h3
    · injection h with h2
      subst h2
      exact h3

theorem update_bitmap_score_pres (st : afl_state) (i best : Nat) :
    (update_bitmap_score st i best).queue_input_hashmap = st.queue_input_hashmap ∧
    (update_bitmap_score st i best).queue_buf.map projH
      = st.queue_buf.map projH := by
  unfold update_bitmap_score
  refine ⟨rfl, ?_⟩
  show (setQ st.queue_buf best (fun e => {e with favored := true})).map projH
    = st.queue_buf.map projH
  exact map_projH_setQ _ _ _ rfl

theorem foldl_state_pres (g : afl_state → Nat → afl_state)
    (hg : ∀ s i, (g s i).queue_input_hashmap = s.queue_input_hashmap ∧
      (g s i).queue_buf.map projH = s.queue_buf.map projH) :
    ∀ (l : List Nat) (s : afl_state),
      (l.foldl g s).queue_input_hashmap = s.queue_input_hashmap ∧
      (l.foldl g s).queue_buf.map projH = s.queue_buf.map projH := by
  intro l
  induction l with
  | nil => exact fun s => ⟨rfl, rfl⟩
  | cons i l ih =>
      intro s
      rw [List.foldl_cons]
      obtain ⟨ihm, ihq⟩ := ih (g s i)
      obtain ⟨hm, hq⟩ := hg s i
      exact ⟨ihm.trans hm, ihq.trans hq⟩

theorem rebalance_step_pres (ctx : Ctx) (ev : Nat) (s : afl_state) (i : Nat) :
    ((if s.top_rated i = some ev then
        let best := (List.range 8).foldl
          (fun acc reps =>
            (s.edge_entries (8 * i + reps)).entries.foldl
              (fun (acc : Nat × Option Nat) id =>
                let fav_score := ctx.get_fav_factor (getQ s.queue_buf id)
                if fav_score < acc.1 then (fav_score, some id) else acc) acc)
          (2 ^ 64 - 1, none)
        match best.2 with
        | some bid =>
            let st' := {s with top_rated := fun j => if j = i then none else s.top_rated j}
            let st'' := update_bitmap_score st' i bid
            if ¬ (getQ st''.queue_buf bid).was_fuzzed then
              {st'' with queue_buf := setQ st''.queue_buf bid (fun e =>
                {e with fuzz_level := (getQ st''.queue_buf ev).fuzz_level,
                        was_fuzzed := (getQ st''.queue_buf ev).was_fuzzed})}
            else st''
        | none =>
            {s with queue_buf := setQ s.queue_buf ev (fun e => {e with favored := true})}
      else s) : afl_state).queue_input_hashmap = s.queue_input_hashmap ∧
    ((if s.top_rated i = some ev then
        let best := (List.range 8).foldl
          (fun acc reps =>
            (s.edge_entries (8 * i + reps)).entries.foldl
              (fun (acc : Nat × Option Nat) id =>
                let fav_score := ctx.get_fav_factor (getQ s.queue_buf id)
                if fav_score < acc.1 then (fav_score, some id) else acc) acc)
          (2 ^ 64 - 1, none)
        match best.2 with
        | some bid =>
            let st' := {s with top_rated := fun j => if j = i then none else s.top_rated j}
            let st'' := update_bitmap_score st' i bid
            if ¬ (getQ st''.queue_buf bid).was_fuzzed then
              {st'' with queue_buf := setQ st''.queue_buf bid (fun e =>
                {e with fuzz_level := (getQ st''.queue_buf ev).fuzz_level,
                        was_fuzzed := (getQ st''.queue_buf ev).was_fuzzed})}
            else st''
        | none =>
            {s with queue_buf := setQ s.queue_buf ev (fun e => {e with favored := true})}
      else s) : afl_state).queue_buf.map projH = s.queue_buf.map projH := by
  split
  · dsimp only
    split
    · split
      · refine ⟨rfl, ?_⟩
        dsimp only
        refine (map_projH_setQ _ _ _ ?_).trans ?_
        · rfl
        · exact (update_bitmap_score_pres _ _ _).2
      · exact ⟨rfl, (update_bitmap_score_pres _ _ _).2⟩
    · refine ⟨rfl, ?_⟩
      show (setQ s.queue_buf ev (fun e => {e with favored := true})).map projH
        = s.queue_buf.map projH
      exact map_projH_setQ _ _ _ rfl
  · exact ⟨rfl, rfl⟩

theorem rebalance_pres (ctx : Ctx) (n : Nat) (st : afl_state) (ev : Nat) :
    (rebalance_top_rated ctx n st ev).queue_input_hashmap = st.queue_input_hashmap ∧
    (rebalance_top_rated ctx n st ev).queue_buf.map projH
      = st.queue_buf.map projH := by
  unfold rebalance_top_rated
  dsimp only
  obtain ⟨hm, hq⟩ := foldl_state_pres _ (rebalance_step_pres ctx ev) (List.range n)
    {st with queue_buf := setQ st.queue_buf ev (fun e => {e with favored := false})}
  refine ⟨hm.trans rfl, hq.trans ?_⟩
  show (setQ st.queue_buf ev (fun e => {e with favored := false})).map projH
    = st.queue_buf.map projH
  exact map_projH_setQ _ _ _ rfl

theorem swap_in_candidate_pres (st : afl_state) (ev : Nat) (new : queue_entry)
    (st' : afl_state) (hinv : input_hash_index_invariant st)
    (hok : swap_in_candidate st ev new = .ok st') :
    input_hash_index_invariant st' ∧
    st'.queue_buf.length = st.queue_buf.length ∧
    (getQ st'.queue_buf ev).input_hash = new.input_hash := by
  unfold swap_in_candidate at hok
  cases hmove : move_queue_entry_to_correct_input_hash st ev new with
  | error e =>
      rw [hmove, except_bind_err] at hok
      exact Except.noConfusion hok
  | ok st1 =>
      rw [hmove, except_bind_ok] at hok
      injection hok with hX
      subst hX
      obtain ⟨hinv1, hlen1, hhash1⟩ := move_invariant_aux _ _ _ _ hinv hmove
      refine ⟨?_, ?_, ?_⟩
      · refine invariant_congr st1 _ rfl ?_ hinv1
        dsimp only
        exact map_projH_setQ _ _ _ rfl
      · dsimp only
        rw [setQ_length, hlen1]
      · have hkeep : (getQ (setQ st1.queue_buf ev (fun e =>
            {e with len := new.len, testcase_buf := new.testcase_buf,
                    compressed_len := new.compressed_len,
                    trace_mini := new.trace_mini})) ev).input_hash
            = (getQ st1.queue_buf ev).input_hash := by
          rw [getQ_setQ]
          split <;> rfl
        exact hkeep.trans hhash1

theorem save_evict_pres (ctx : Ctx) (trace : List Nat) (pos idx : Nat)
    (ls ls' : save_loop_state) (hinv : input_hash_index_invariant ls.st)
    (hok : save_evict ctx trace pos idx ls = .ok ls') :
    input_hash_index_invariant ls'.st ∧
    ls'.st.queue_buf.length = ls.st.queue_buf.length := by
  unfold save_evict at hok
  dsimp only at hok
  cases hens : ensure_trace_mini ctx trace (ls.st.prevLongest, ls.st.maxCompressedLen)
      ls.q_entry with
  | error e =>
      rw [hens, except_bind_err] at hok
      exact Except.noConfusion hok
  | ok p =>
      obtain ⟨scr1, q'⟩ := p
      rw [hens, except_bind_ok] at hok
      dsimp only at hok
      set st1 : afl_state :=
        {ls.st with prevLongest := scr1.1, maxCompressedLen := scr1.2} with hst1
      have hinv1 : input_hash_index_invariant st1 :=
        invariant_congr ls.st st1 rfl rfl hinv
      cases hswap : swap_in_candidate st1
          ((st1.edge_entries pos).entries.getD idx 0) q' with
      | error e =>
          rw [hswap, except_bind_err] at hok
          exact Except.noConfusion hok
      | ok st2 =>
          rw [hswap, except_bind_ok] at hok
          injection hok with hX
          subst hX
          obtain ⟨hinv2, hlen2, hhash2⟩ := swap_in_candidate_pres _ _ _ _ hinv1 hswap
          dsimp only
          set ev := (st1.edge_entries pos).entries.getD idx 0 with hev
          set qb3 := setQ st2.queue_buf ev
            (fun e => {e with exec_cksum := 0, input_hash := q'.input_hash}) with hqb3
          set st3 : afl_state := {st2 with queue_buf := qb3} with hst3
          have hq3 : st3.queue_buf.map projH = st2.queue_buf.map projH := by
            rw [hst3]
            dsimp only
            rw [hqb3]
            refine map_projH_setQ _ _ _ ?_
            show projH
                ((fun e => {e with exec_cksum := 0, input_hash := q'.input_hash})
                  (getQ st2.queue_buf ev))
              = projH (getQ st2.queue_buf ev)
            unfold projH
            rw [hhash2]
          have hinv3 : input_hash_index_invariant st3 :=
            invariant_congr st2 st3 rfl hq3 hinv2
          have hlen3 : st3.queue_buf.length = st2.queue_buf.length := by
            rw [show st3.queue_buf = qb3 from rfl, hqb3]
            exact setQ_length _ _ _
          set ids := (st1.edge_entries pos).entries with hids
          set c := calc_NCDm ctx (st3.prevLongest, st3.maxCompressedLen)
            (ids.map (getQ st3.queue_buf)) with hc
          have hwb : (writeBackQ qb3 ids c.2.1).map projH
              = st2.queue_buf.map projH := by
            rw [hc, calc_NCDm_cached]
            exact (map_projH_writeBackQ_cache ctx qb3 ids).trans hq3
          have hwb_len : (writeBackQ qb3 ids c.2.1).length = st2.queue_buf.length := by
            rw [writeBackQ_length, hqb3, setQ_length]
          constructor
          · refine invariant_congr st2 _ ?_ ?_ hinv2
            · split
              · dsimp only
                split
                · exact (rebalance_pres _ _ _ _).1
                · rfl
              · dsimp only
                split
                · exact (rebalance_pres _ _ _ _).1
                · rfl
            · split
              · dsimp only
                refine (map_projH_setQ _ _ _ ?_).trans ?_
                · rfl
                · split
                  · exact ((rebalance_pres _ _ _ _).2).trans hwb
                  · exact hwb
              · dsimp only
                refine (map_projH_setQ _ _ _ ?_).trans ?_
                · unfold calibrate_case projH
                  rfl
                · split
                  · exact ((rebalance_pres _ _ _ _).2).trans hwb
                  · exact hwb
          · have hfin : ∀ (q : List queue_entry), q.map projH = st2.queue_buf.map projH →
                q.length = ls.st.queue_buf.length := by
              intro q hq
              have := congrArg List.length hq
              simp only [List.length_map] at this
              rw [this, hlen2]
            split
            · dsimp only
              rw [setQ_length]
              split
              · exact hfin _ (((rebalance_pres _ _ _ _).2).trans hwb)
              · exact hfin _ hwb
            · dsimp only
              rw [setQ_length]
              split
              · exact hfin _ (((rebalance_pres _ _ _ _).2).trans hwb)
              · exact hfin _ hwb

theorem getQ_append_lt (q : List queue_entry) (e : queue_entry) (x : Nat)
    (h : x < q.length) : getQ (q ++ [e]) x = getQ q x :=
  List.getD_append q [e] default x h

theorem getQ_append_self (q : List queue_entry) (e : queue_entry) :
    getQ (q ++ [e]) q.length = e := by
  rw [getQ, List.getD_eq_getElem?_getD, List.getElem?_concat_length]
  rfl

theorem ensure_hash (ctx : Ctx) (trace : List Nat) (scr : Nat × Nat)
    (q : queue_entry) (scr' : Nat × Nat) (q' : queue_entry)
    (h : ensure_trace_mini ctx trace scr q = .ok (scr', q')) :
    q'.input_hash = q.input_hash := by
  unfold ensure_trace_mini fill_trace_mini_and_compressed_len at h
  dsimp only at h
  split at h
  · split at h
    · exact Except.noConfusion h
    · injection h with h2
      obtain ⟨h3, h4⟩ := Prod.mk.injEq .. ▸ h2
      subst h4
      rfl
  · injection h with h2
    obtain ⟨h3, h4⟩ := Prod.mk.injEq .. ▸ h2
    subst h4
    rfl

theorem map_projH_writeBackQ_of_map_eq (q : List queue_entry) (ids : List Nat)
    (es : List queue_entry)
    (h : es.map projH = (ids.map (getQ q)).map projH) :
    (writeBackQ q ids es).map projH = q.map projH := by
  apply map_projH_foldl_set
  rw [List.map_map] at h
  clear * - h
  induction ids generalizing es with
  | nil =>
      intro p hp
      simp at hp
  | cons i ids ih =>
      intro p hp
      cases es with
      | nil => simp at hp
      | cons e es =>
          rw [List.map_cons, List.map_cons] at h
          obtain ⟨h1, h2⟩ := List.cons.injEq .. ▸ h
          rw [List.zip_cons_cons] at hp
          rcases List.mem_cons.1 hp with rfl | hp'
          · exact h1
          · exact ih es h2 p hp'

theorem index_ok_congr (m : List queue_input_hash) (qb qb' : List queue_entry)
    (hq : qb'.map projH = qb.map projH) (h : index_ok m qb) : index_ok m qb' := by
  have hlen : qb'.length = qb.length := by
    have := congrArg List.length hq
    simpa using this
  have hpt : ∀ x, projH (getQ qb' x) = projH (getQ qb x) :=
    projH_getQ_of_map_eq _ _ hq
  obtain ⟨h1, h2, h3, h4⟩ := h
  refine ⟨h1, ?_, h3, ?_⟩
  · intro b hb id hid
    obtain ⟨ha, hh, hd⟩ := h2 b hb id hid
    refine ⟨by omega, ?_, ?_⟩
    · calc (getQ qb' id).input_hash = (getQ qb id).input_hash :=
            congrArg Prod.fst (hpt id)
        _ = b.hash := hh
    · calc (getQ qb' id).duplicates = (getQ qb id).duplicates :=
            congrArg Prod.snd (hpt id)
        _ = b.inputs.length - 1 := hd
  · intro id hid
    exact h4 id (by omega)

theorem register_found (m : List queue_input_hash) (qb : List queue_entry)
    (e0 : queue_entry) (f : queue_entry → queue_entry) (qh : Nat)
    (found : queue_input_hash) (hok : index_ok m qb)
    (hfound : hashmap_get m qh = some found)
    (hfh : ∀ e, (f e).input_hash = qh)
    (hfd : ∀ e, (f e).duplicates = e.duplicates)
    (he0d : e0.duplicates = 0) :
    index_ok (hashmap_set m {found with inputs := found.inputs ++ [qb.length]})
      ((found.inputs ++ [qb.length]).foldl
        (fun acc id => setQ acc id (fun e =>
          {e with duplicates := (found.inputs ++ [qb.length]).length - 1}))
        (setQ (qb ++ [e0]) qb.length f)) := by
  obtain ⟨hP, hC2, hND, hC4⟩ := hok
  obtain ⟨hfmem, hfhash⟩ := hashmap_get_some _ _ _ hfound
  have hqb4len : (setQ (qb ++ [e0]) qb.length f).length = qb.length + 1 := by
    rw [setQ_length]
    simp
  have hqb4old : ∀ x, x < qb.length →
      getQ (setQ (qb ++ [e0]) qb.length f) x = getQ qb x := by
    intro x hx
    rw [getQ_setQ]
    rw [if_neg (fun hcon => by omega)]
    exact getQ_append_lt _ _ _ hx
  have hqb4new : getQ (setQ (qb ++ [e0]) qb.length f) qb.length
      = f (getQ (qb ++ [e0]) qb.length) := by
    rw [getQ_setQ]
    rw [if_pos ⟨rfl, by simp⟩]
  have hg5 : ∀ x, getQ ((found.inputs ++ [qb.length]).foldl
      (fun acc id => setQ acc id (fun e =>
        {e with duplicates := (found.inputs ++ [qb.length]).length - 1}))
      (setQ (qb ++ [e0]) qb.length f)) x
      = if x ∈ found.inputs ++ [qb.length] ∧ x < qb.length + 1
        then {getQ (setQ (qb ++ [e0]) qb.length f) x with
               duplicates := (found.inputs ++ [qb.length]).length - 1}
        else getQ (setQ (qb ++ [e0]) qb.length f) x := by
    intro x
    rw [getQ_foldl_setDup, hqb4len]
  have hlen5 : ((found.inputs ++ [qb.length]).foldl
      (fun acc id => setQ acc id (fun e =>
        {e with duplicates := (found.inputs ++ [qb.length]).length - 1}))
      (setQ (qb ++ [e0]) qb.length f)).length = qb.length + 1 := by
    rw [foldl_setQ_length, hqb4len]
  have hnidF : qb.length ∉ found.inputs := by
    intro hcon
    have := (hC2 found hfmem _ hcon).1
    omega
  refine ⟨?_, ?_, ?_, ?_⟩
  · exact hashmap_set_pairwise _ _ hP
  · intro b hb id hid
    rcases hashmap_set_mem _ _ _ hb with rfl | ⟨hbm, hbne⟩
    · have hidm : id ∈ found.inputs ++ [qb.length] := hid
      have hidlt : id < qb.length + 1 := by
        rcases List.mem_append.1 hidm with h | h
        · have := (hC2 found hfmem id h).1
          omega
        · simp at h
          omega
      refine ⟨by rw [hlen5]; exact hidlt, ?_, ?_⟩
      · rw [hg5 id, if_pos ⟨hidm, hidlt⟩]
        show (getQ (setQ (qb ++ [e0]) qb.length f) id).input_hash = _
        rcases List.mem_append.1 hidm with h | h
        · rw [hqb4old id (hC2 found hfmem id h).1]
          exact (hC2 found hfmem id h).2.1
        · obtain rfl : id = qb.length := by simpa using h
          rw [hqb4new, hfh]
          exact hfhash.symm
      · rw [hg5 id, if_pos ⟨hidm, hidlt⟩]
    · obtain ⟨hidlt, hidh, hidd⟩ := hC2 b hbm id hid
      have hidnF : id ∉ found.inputs := by
        intro hcon
        exact hbne (hidh.symm.trans (hC2 found hfmem id hcon).2.1)
      have hidm : id ∉ found.inputs ++ [qb.length] := by
        intro hcon
        rcases List.mem_append.1 hcon with h | h
        · exact hidnF h
        · simp at h
          omega
      refine ⟨by rw [hlen5]; omega, ?_, ?_⟩
      · rw [hg5 id, if_neg (fun hcon => hidm hcon.1), hqb4old id hidlt]
        exact hidh
      · rw [hg5 id, if_neg (fun hcon => hidm hcon.1), hqb4old id hidlt]
        exact hidd
  · intro b hb
    rcases hashmap_set_mem _ _ _ hb with rfl | ⟨hbm, _⟩
    · show (found.inputs ++ [qb.length]).Nodup
      rw [List.nodup_append]
      exact ⟨hND found hfmem, by simp, by simp [hnidF]⟩
    · exact hND b hbm
  · intro id hid
    rw [hlen5] at hid
    by_cases hnew : id = qb.length
    · subst hnew
      exact ⟨{found with inputs := found.inputs ++ [qb.length]},
        hashmap_set_self _ _, by simp⟩
    · obtain ⟨b, hbm, hbid⟩ := hC4 id (by omega)
      by_cases hbf : b = found
      · rw [hbf] at hbid
        exact ⟨{found with inputs := found.inputs ++ [qb.length]},
          hashmap_set_self _ _, List.mem_append_left _ hbid⟩
      · have hbneF : b.hash ≠ found.hash := fun hcon =>
          hbf (pairwise_key_unique _ hP b found hbm hfmem hcon)
        exact ⟨b, hashmap_set_keep _ _ _ hbm (fun hcon => hbneF hcon), hbid⟩

theorem register_none (m : List queue_input_hash) (qb : List queue_entry)
    (e0 : queue_entry) (f : queue_entry → queue_entry) (qh : Nat)
    (hok : index_ok m qb)
    (hnone : hashmap_get m qh = none)
    (hfh : ∀ e, (f e).input_hash = qh)
    (hfd : ∀ e, (f e).duplicates = e.duplicates)
    (he0d : e0.duplicates = 0) :
    index_ok (hashmap_set m {hash := qh, inputs := [qb.length]})
      (setQ (qb ++ [e0]) qb.length f) := by
  obtain ⟨hP, hC2, hND, hC4⟩ := hok
  have hmnone : ∀ b ∈ m, b.hash ≠ qh := hashmap_get_none _ _ hnone
  have hqb4len : (setQ (qb ++ [e0]) qb.length f).length = qb.length + 1 := by
    rw [setQ_length]
    simp
  have hqb4old : ∀ x, x < qb.length →
      getQ (setQ (qb ++ [e0]) qb.length f) x = getQ qb x := by
    intro x hx
    rw [getQ_setQ]
    rw [if_neg (fun hcon => by omega)]
    exact getQ_append_lt _ _ _ hx
  have hqb4new : getQ (setQ (qb ++ [e0]) qb.length f) qb.length
      = f (getQ (qb ++ [e0]) qb.length) := by
    rw [getQ_setQ]
    rw [if_pos ⟨rfl, by simp⟩]
  refine ⟨?_, ?_, ?_, ?_⟩
  · exact hashmap_set_pairwise _ _ hP
  · intro b hb id hid
    rcases hashmap_set_mem _ _ _ hb with rfl | ⟨hbm, hbne⟩
    · obtain rfl : id = qb.length := by simpa using hid
      refine ⟨by rw [hqb4len]; omega, ?_, ?_⟩
      · rw [hqb4new, hfh]
      · rw [hqb4new, hfd, getQ_append_self, he0d]
        rfl
    · obtain ⟨hidlt, hidh, hidd⟩ := hC2 b hbm id hid
      refine ⟨by rw [hqb4len]; omega, ?_, ?_⟩
      · rw [hqb4old id hidlt]
        exact hidh
      · rw [hqb4old id hidlt]
        exact hidd
  · intro b hb
    rcases hashmap_set_mem _ _ _ hb with rfl | ⟨hbm, _⟩
    · simp
    · exact hND b hbm
  · intro id hid
    rw [hqb4len] at hid
    by_cases hnew : id = qb.length
    · subst hnew
      exact ⟨{hash := qh, inputs := [qb.length]}, hashmap_set_self _ _, by simp⟩
    · obtain ⟨b, hbm, hbid⟩ := hC4 id (by omega)
      exact ⟨b, hashmap_set_keep _ _ _ hbm (fun hcon => hmnone b hbm hcon), hbid⟩

set_option maxHeartbeats 2000000 in
theorem step_invariant_pres (ctx : Ctx) (trace : List Nat) (k : Nat)
    (ls ls' : save_loop_state) (hinv : input_hash_index_invariant ls.st)
    (hok : save_to_edge_entries_step ctx trace k ls = .ok ls') :
    input_hash_index_invariant ls'.st := by
  unfold save_to_edge_entries_step at hok
  dsimp only at hok
  split at hok
  · injection hok with hX
    subst hX
    exact hinv
  · split at hok
    · injection hok with hX
      subst hX
      exact invariant_congr ls.st _ rfl rfl hinv
    · split at hok
      · -- fill phase
        split at hok <;> split at hok
        · injection hok with hX
          subst hX
          exact invariant_congr ls.st _ rfl rfl hinv
        · simp only [add_to_queue] at hok
          cases hens4 : ensure_trace_mini ctx trace
              (ls.st.prevLongest, ls.st.maxCompressedLen) ls.q_entry with
          | error e =>
              rw [hens4, except_bind_err] at hok
              exact Except.noConfusion hok
          | ok p =>
              obtain ⟨scr4, q'⟩ := p
              rw [hens4, except_bind_ok] at hok
              dsimp only at hok
              injection hok with hX
              subst hX
              dsimp only
              cases hget : hashmap_get ls.st.queue_input_hashmap q'.input_hash with
              | some found =>
                  dsimp only
                  have hreg := register_found ls.st.queue_input_hashmap ls.st.queue_buf
                    {(default : queue_entry) with len := ls.q_entry.len, exec_cksum := 0}
                    (fun e =>
                      {e with testcase_buf := payload q', exec_cksum := 0,
                              input_hash := q'.input_hash, trace_mini := q'.trace_mini})
                    q'.input_hash found hinv hget (fun e => rfl) (fun e => rfl) rfl
                  split
                  · show index_ok _ _
                    refine index_ok_congr _ _ _ ?_ hreg
                    dsimp only
                    refine (map_projH_setQ _ _ _ ?_).trans ?_
                    · rfl
                    · rw [calc_NCDm_cached]
                      exact map_projH_writeBackQ_cache _ _ _
                  · show index_ok _ _
                    refine index_ok_congr _ _ _ ?_ hreg
                    dsimp only
                    refine (map_projH_setQ _ _ _ ?_).trans ?_
                    · rfl
                    · rw [calc_NCDm_cached]
                      exact map_projH_writeBackQ_cache _ _ _
              | none =>
                  dsimp only
                  have hreg := register_none ls.st.queue_input_hashmap ls.st.queue_buf
                    {(default : queue_entry) with len := ls.q_entry.len, exec_cksum := 0}
                    (fun e =>
                      {e with testcase_buf := payload q', exec_cksum := 0,
                              input_hash := q'.input_hash, trace_mini := q'.trace_mini})
                    q'.input_hash hinv hget (fun e => rfl) (fun e => rfl) rfl
                  split
                  · show index_ok _ _
                    refine index_ok_congr _ _ _ ?_ hreg
                    dsimp only
                    refine (map_projH_setQ _ _ _ ?_).trans ?_
                    · rfl
                    · rw [calc_NCDm_cached]
                      exact map_projH_writeBackQ_cache _ _ _
                  · show index_ok _ _
                    refine index_ok_congr _ _ _ ?_ hreg
                    dsimp only
                    refine (map_projH_setQ _ _ _ ?_).trans ?_
                    · rfl
                    · rw [calc_NCDm_cached]
                      exact map_projH_writeBackQ_cache _ _ _
        · injection hok with hX
          subst hX
          exact invariant_congr ls.st _ rfl rfl hinv
        · simp only [add_to_queue] at hok
          cases hens4 : ensure_trace_mini ctx trace
              (ls.st.prevLongest, ls.st.maxCompressedLen) ls.q_entry with
          | error e =>
              rw [hens4, except_bind_err] at hok
              exact Except.noConfusion hok
          | ok p =>
              obtain ⟨scr4, q'⟩ := p
              rw [hens4, except_bind_ok] at hok
              dsimp only at hok
              injection hok with hX
              subst hX
              dsimp only
              cases hget : hashmap_get ls.st.queue_input_hashmap q'.input_hash with
              | some found =>
                  dsimp only
                  have hreg := register_found ls.st.queue_input_hashmap ls.st.queue_buf
                    {(default : queue_entry) with len := ls.q_entry.len, exec_cksum := 0}
                    (fun e =>
                      {e with testcase_buf := payload q', exec_cksum := 0,
                              input_hash := q'.input_hash, trace_mini := q'.trace_mini})
                    q'.input_hash found hinv hget (fun e => rfl) (fun e => rfl) rfl
                  split
                  · show index_ok _ _
                    refine index_ok_congr _ _ _ ?_ hreg
                    dsimp only
                    refine (map_projH_setQ _ _ _ ?_).trans ?_
                    · rfl
                    · rw [calc_NCDm_cached]
                      exact map_projH_writeBackQ_cache _ _ _
                  · show index_ok _ _
                    refine index_ok_congr _ _ _ ?_ hreg
                    dsimp only
                    refine (map_projH_setQ _ _ _ ?_).trans ?_
                    · rfl
                    · rw [calc_NCDm_cached]
                      exact map_projH_writeBackQ_cache _ _ _
              | none =>
                  dsimp only
                  have hreg := register_none ls.st.queue_input_hashmap ls.st.queue_buf
                    {(default : queue_entry) with len := ls.q_entry.len, exec_cksum := 0}
                    (fun e =>
                      {e with testcase_buf := payload q', exec_cksum := 0,
                              input_hash := q'.input_hash, trace_mini := q'.trace_mini})
                    q'.input_hash hinv hget (fun e => rfl) (fun e => rfl) rfl
                  split
                  · show index_ok _ _
                    refine index_ok_congr _ _ _ ?_ hreg
                    dsimp only
                    refine (map_projH_setQ _ _ _ ?_).trans ?_
                    · rfl
                    · rw [calc_NCDm_cached]
                      exact map_projH_writeBackQ_cache _ _ _
                  · show index_ok _ _
                    refine index_ok_congr _ _ _ ?_ hreg
                    dsimp only
                    refine (map_projH_setQ _ _ _ ?_).trans ?_
                    · rfl
                    · rw [calc_NCDm_cached]
                      exact map_projH_writeBackQ_cache _ _ _
      · -- saturated phase
        split at hok
        · injection hok with hX
          subst hX
          exact invariant_congr ls.st _ rfl rfl hinv
        · split at hok
          · -- eviction of a duplicate-marked entry
            refine (save_evict_pres _ _ _ _ _ _ ?_ hok).1
            exact invariant_congr ls.st _ rfl rfl hinv
          · split at hok
            · injection hok with hX
              subst hX
              exact invariant_congr ls.st _ rfl rfl hinv
            · -- NCD-based candidate search
              cases hens : ensure_trace_mini ctx trace
                  (ls.st.prevLongest, ls.st.maxCompressedLen) ls.q_entry with
              | error e =>
                  rw [hens, except_bind_err] at hok
                  exact Except.noConfusion hok
              | ok p =>
                  obtain ⟨scr2, q'⟩ := p
                  rw [hens, except_bind_ok] at hok
                  cases hfec : find_eviction_candidate ctx (scr2.1, scr2.2)
                      ((ls.st.edge_entries (8 * k + reps_of (count_class_lookup8
                        (trace.getD k 0 % 256)))).normalised_compression_dist)
                      ((ls.st.edge_entries (8 * k + reps_of (count_class_lookup8
                        (trace.getD k 0 % 256)))).entries.map
                          (getQ ls.st.queue_buf))
                      q' false with
                  | error e =>
                      rw [hfec, except_bind_err] at hok
                      exact Except.noConfusion hok
                  | ok fec =>
                      rw [hfec, except_bind_ok] at hok
                      have hq3 : (writeBackQ ls.st.queue_buf
                          (ls.st.edge_entries (8 * k + reps_of (count_class_lookup8
                            (trace.getD k 0 % 256)))).entries fec.2.1).map projH
                          = ls.st.queue_buf.map projH :=
                        map_projH_writeBackQ_of_map_eq _ _ _
                          (fec_snd_projH _ _ _ _ _ _ _ hfec)
                      split at hok
                      · injection hok with hX
                        subst hX
                        exact invariant_congr ls.st _ rfl hq3 hinv
                      · refine (save_evict_pres _ _ _ _ _ _ ?_ hok).1
                        exact invariant_congr ls.st _ rfl hq3 hinv

/-- The byte-scan loop of `save_to_edge_entries` preserves the input-hash index
invariant: each step does (by `step_invariant_pres`), so the fold does by induction
on the index list. -/
theorem save_loop_invariant (ctx : Ctx) (trace : List Nat) :
    ∀ (l : List Nat) (ls ls' : save_loop_state),
      input_hash_index_invariant ls.st →
      l.foldlM (fun ls k => save_to_edge_entries_step ctx trace k ls) ls = .ok ls' →
      input_hash_index_invariant ls'.st := by
  intro l
  induction l with
  | nil =>
      intro ls ls' hinv h
      have hnil : (([] : List Nat).foldlM
          (fun ls k => save_to_edge_entries_step ctx trace k ls) ls) = Except.ok ls := rfl
      rw [hnil] at h
      injection h with h
      exact h ▸ hinv
  | cons k rest ih =>
      intro ls ls' hinv h
      have hc : ((k :: rest).foldlM
          (fun ls k => save_to_edge_entries_step ctx trace k ls) ls) =
          save_to_edge_entries_step ctx trace k ls >>= fun b =>
            rest.foldlM (fun ls k => save_to_edge_entries_step ctx trace k ls) b := rfl
      rw [hc] at h
      cases hstep : save_to_edge_entries_step ctx trace k ls with
      | error e =>
          rw [hstep, except_bind_err] at h
          exact Except.noConfusion h
      | ok ls1 =>
          rw [hstep, except_bind_ok] at h
          exact ih ls1 ls' (step_invariant_pres ctx trace k ls ls1 hinv hstep) h

/-- C3: save_to_edge_entries and move_queue_entry_to_correct_input_hash keep the
InputHashIndex consistent with the queue — bucket keys are pairwise distinct, every
queue index listed in a bucket is in range, carries that bucket's hash in its
`input_hash` field with `duplicates = inputs_count - 1`, bucket index lists are
duplicate-free, and every queue entry is listed in some bucket — whenever they
return successfully from a state satisfying that consistency. -/
theorem input_hash_index_preserved :
    (∀ (st : afl_state) (evictee : Nat) (new : queue_entry) (st' : afl_state),
        input_hash_index_invariant st →
        move_queue_entry_to_correct_input_hash st evictee new = .ok st' →
        input_hash_index_invariant st') ∧
    (∀ (ctx : Ctx) (trace : List Nat) (st : afl_state) (q_entry : queue_entry)
        (st' : afl_state) (inserted : Bool),
        input_hash_index_invariant st →
        save_to_edge_entries ctx trace st q_entry = .ok (st', inserted) →
        input_hash_index_invariant st') := by
  refine ⟨fun st evictee new st' hinv hok =>
    (move_invariant_aux st evictee new st' hinv hok).1, ?_⟩
  intro ctx trace st q_entry st' inserted hinv hok
  unfold save_to_edge_entries at hok
  split at hok
  · injection hok with h
    have h1 : st = st' := congrArg Prod.fst h
    exact h1 ▸ hinv
  · dsimp only at hok
    cases hloop : (List.range trace.length).foldlM
        (fun ls k => save_to_edge_entries_step ctx trace k ls)
        ⟨st, {q_entry with input_hash := ctx.hash64 (payload q_entry)},
         (hashmap_get st.queue_input_hashmap (ctx.hash64 (payload q_entry))).isSome,
         false, ctx.cal, false⟩ with
    | error e =>
        rw [hloop, except_bind_err] at hok
        exact Except.noConfusion hok
    | ok fin =>
        rw [hloop, except_bind_ok] at hok
        injection hok with h
        have h1 : fin.st = st' := congrArg Prod.fst h
        exact h1 ▸ save_loop_invariant ctx trace (List.range trace.length) _ fin hinv hloop

theorem input_hash_index_preserved_witness :
    (input_hash_index_invariant exS1 ∧
       move_queue_entry_to_correct_input_hash exS1 0 exQC5 = .ok exMoveS ∧
       input_hash_index_invariant exMoveS) ∧
    (input_hash_index_invariant exState0 ∧
       save_to_edge_entries exCtx exTrace exState0 exQ = .ok (exS1, true) ∧
       input_hash_index_invariant exS1) := by
  have hinv0 : input_hash_index_invariant exState0 := by
    unfold input_hash_index_invariant index_ok
    decide
  have hinvS1 : input_hash_index_invariant exS1 := by
    unfold input_hash_index_invariant index_ok
    decide
  exact ⟨⟨hinvS1, rfl, input_hash_index_preserved.1 exS1 0 exQC5 exMoveS hinvS1 rfl⟩,
         ⟨hinv0, rfl,
          input_hash_index_preserved.2 exCtx exTrace exState0 exQ exS1 true hinv0 rfl⟩⟩

end LeakFuzzer
